import Mathlib

/-!
Shallow embedding of the engarde client's scheduling core
(src/Rust/Client/src/scheduler/mod.rs and src/Rust/Client/src/main.rs).

Modelling conventions:
* `f64` fields are modelled as `ℚ` with exact arithmetic wherever the code
  only ever manipulates finite values; the weight file, whose claims hinge
  on NaN and infinities, uses the four-constructor type `FVal` with IEEE
  comparison semantics.
* `usize` / `u64` are modelled as `ℕ`; `saturating_sub` is `ℕ` subtraction,
  which saturates at zero by definition; the `u64` version counter wraps
  modulo `2 ^ 64` as `wrapping_add` does.
* `Duration::as_secs_f64` is modelled by storing the smoothed RTT directly
  as a rational number of seconds.
* `SmallVec<[PathId; 4]>` is a `List ℕ`; `PathId(u32)` is `ℕ`.
* Rust `HashMap`s that are only read through `get`/`contains_key` and
  written through `insert`/`remove` are modelled as total functions with a
  default, or as association lists, as noted at each use site.
-/

namespace Engarde

/-- Scheduling state of one link, mirroring `LinkState` in scheduler/mod.rs:
`id`, `up`, `weight`, `smoothed_rtt` (seconds), `loss`, `send_bps`,
`inflight_bytes`, `tokens`. -/
structure LinkState where
  id : Nat
  up : Bool
  weight : ℚ
  smoothed_rtt : ℚ
  loss : ℚ
  send_bps : ℚ
  inflight_bytes : ℚ
  tokens : Nat
deriving DecidableEq, Repr

/-- The eligibility test `l.up && l.tokens >= pkt_len` used by
`MirrorScheduler::select_paths` and `Replica2WeightedScheduler::eligible_links`. -/
def eligB (pkt : Nat) (l : LinkState) : Bool :=
  l.up && decide (pkt ≤ l.tokens)

/-- `MirrorScheduler::select_paths`: push every up link with enough tokens
and subtract `pkt_len` from its bucket (`saturating_sub`). Returns the
selected ids together with the updated slice. -/
def mirrorSelect (pkt : Nat) : List LinkState → List Nat × List LinkState
  | [] => ([], [])
  | l :: ls =>
    let r := mirrorSelect pkt ls
    if eligB pkt l then
      (l.id :: r.1, { l with tokens := l.tokens - pkt } :: r.2)
    else
      (r.1, l :: r.2)

/-- `Replica2WeightedConfig`: `use_weights`, `loss_penalty`,
`queue_penalty_scale`, `rtt_alpha`. -/
structure Replica2Cfg where
  use_weights : Bool
  loss_penalty : ℚ
  queue_penalty_scale : ℚ
  rtt_alpha : ℚ
deriving DecidableEq, Repr

/-- Default `Replica2WeightedConfig` values. -/
def replica2CfgDefault : Replica2Cfg :=
  { use_weights := true, loss_penalty := 5, queue_penalty_scale := 1, rtt_alpha := 1 }

/-- `Replica2WeightedScheduler::compute_eta`, translated clause by clause:
the queue divisor is `link.send_bps` when it is strictly positive and `1`
otherwise, and with `use_weights` the sum is divided by
`link.weight.max(0.1)`. -/
def computeEta (cfg : Replica2Cfg) (l : LinkState) : ℚ :=
  let rtt_component := cfg.rtt_alpha * l.smoothed_rtt
  let sbps := if 0 < l.send_bps then l.send_bps else 1
  let queue_component := cfg.queue_penalty_scale * (l.inflight_bytes / sbps)
  let loss_component := l.loss * cfg.loss_penalty
  let eta := rtt_component + queue_component + loss_component
  if cfg.use_weights then eta / max l.weight (1 / 10) else eta

/-- Cost formula exactly as the specification words it: `rtt_alpha *
srtt_seconds + queue_penalty_scale * (inflight_bytes / max(send_bps, 1)) +
loss_rate * loss_penalty`, divided by `max(weight, 0.1)` when
`use_weights`. -/
def specEta (cfg : Replica2Cfg) (l : LinkState) : ℚ :=
  let base := cfg.rtt_alpha * l.smoothed_rtt
    + cfg.queue_penalty_scale * (l.inflight_bytes / max l.send_bps 1)
    + l.loss * cfg.loss_penalty
  if cfg.use_weights then base / max l.weight (1 / 10) else base

/-- Amended cost formula: identical to the specification's wording except
that the queue divisor is `send_bps` when strictly positive and `1`
otherwise. -/
def specEtaAmended (cfg : Replica2Cfg) (l : LinkState) : ℚ :=
  let base := cfg.rtt_alpha * l.smoothed_rtt
    + cfg.queue_penalty_scale
      * (l.inflight_bytes / (if 0 < l.send_bps then l.send_bps else 1))
    + l.loss * cfg.loss_penalty
  if cfg.use_weights then base / max l.weight (1 / 10) else base

/-- `SchedulerMetrics` counters (`u64`, modelled as `ℕ`; the counters only
ever increase and no claim concerns overflow). -/
structure SchedulerMetrics where
  replica2_primary : Nat
  replica2_secondary : Nat
  replica2_fallbacks : Nat
  no_token_skips : Nat
deriving DecidableEq, Repr

instance : Inhabited SchedulerMetrics := ⟨⟨0, 0, 0, 0⟩⟩

/-- `SchedulerMetrics::accumulate`. -/
def SchedulerMetrics.accumulate (a b : SchedulerMetrics) : SchedulerMetrics :=
  { replica2_primary := a.replica2_primary + b.replica2_primary
    replica2_secondary := a.replica2_secondary + b.replica2_secondary
    replica2_fallbacks := a.replica2_fallbacks + b.replica2_fallbacks
    no_token_skips := a.no_token_skips + b.no_token_skips }

/-- `WeightedEntry` of the weighted-round-robin scheduler. -/
structure WeightedEntry where
  id : Nat
  weight : ℚ
  current_weight : ℚ
deriving DecidableEq, Repr

/-- The concrete scheduler instances produced by `SchedulerFactory::build`:
`MirrorScheduler` (stateless), `WeightedRoundRobinScheduler` (its entry
list; the `cache` field is write-only in the source and therefore not
modelled), and `Replica2WeightedScheduler` (threshold, config, owned
fallback, metrics). -/
inductive SchedImpl where
  | mirror : SchedImpl
  | wrr (entries : List WeightedEntry) : SchedImpl
  | replica2 (minLinks : Nat) (cfg : Replica2Cfg) (fallback : SchedImpl)
      (metrics : SchedulerMetrics) : SchedImpl
deriving DecidableEq, Repr

/-- `Scheduler::metrics`: the default implementation returns zeroes; only
`Replica2WeightedScheduler` overrides it. -/
def metricsOf : SchedImpl → SchedulerMetrics
  | .mirror => default
  | .wrr _ => default
  | .replica2 _ _ _ m => m

/-- `SchedulerAlgorithm` variants. -/
inductive SchedulerAlgorithm where
  | Mirror : SchedulerAlgorithm
  | WeightedRoundRobin : SchedulerAlgorithm
  | Replica2Weighted : SchedulerAlgorithm
  | FecKn : SchedulerAlgorithm
deriving DecidableEq, Repr

/-- `AggregationConfig` (the serde field names are irrelevant here). -/
structure AggregationConfig where
  min_links_for_aggregation : Nat
  algorithm : SchedulerAlgorithm
  replica2 : Replica2Cfg
deriving DecidableEq, Repr

/-- `SchedulerError::Unsupported(&'static str)`. -/
inductive SchedulerError where
  | Unsupported (name : String) : SchedulerError
deriving DecidableEq, Repr

/-- `SchedulerFactory::build`: the three implemented variants succeed,
`FecKn` yields `Unsupported("fec_kn")`.  A fresh WRR scheduler has empty
entry state, and Replica2 owns a fresh WRR fallback and zeroed metrics. -/
def SchedulerFactory.build (algorithm : SchedulerAlgorithm)
    (config : AggregationConfig) : Except SchedulerError SchedImpl :=
  match algorithm with
  | .Mirror => .ok .mirror
  | .WeightedRoundRobin => .ok (.wrr [])
  | .Replica2Weighted =>
    .ok (.replica2 config.min_links_for_aggregation config.replica2 (.wrr []) default)
  | .FecKn => .error (.Unsupported ("fec_kn"))

/-- `f64::EPSILON`, the tolerance of the weight-change test in
`WeightedRoundRobinScheduler::rebuild`. -/
def wrrEps : ℚ := 1 / 2 ^ 52

/-- Loop body of `WeightedRoundRobinScheduler::rebuild`: walk the up links
in slice order, reusing the drained entry for the same id when present
(`existing` is the drained `HashMap`, modelled as an association list with
last-wins lookup and whole-key removal), sanitising the weight
(`link.weight.max(0.0)`; non-finite weights cannot arise in the `ℚ` model)
and resetting `current_weight` when the weight moved by more than
`f64::EPSILON`. -/
def wrrRebuildGo (existing : List WeightedEntry) : List LinkState → List WeightedEntry
  | [] => []
  | l :: ls =>
    let weight := max l.weight 0
    let e0 := match existing.reverse.find? (fun e => e.id = l.id) with
      | some e => e
      | none => { id := l.id, weight := weight, current_weight := 0 }
    let e1 := if wrrEps < |e0.weight - weight| then
        { id := e0.id, weight := weight, current_weight := 0 }
      else e0
    e1 :: wrrRebuildGo (existing.filter (fun e => e.id ≠ l.id)) ls

/-- `WeightedRoundRobinScheduler::rebuild`: drain the previous entries into
a map and rebuild the entry list from the up links in slice order.  The
`cache` field is write-only in the source and not modelled. -/
def wrrRebuild (entries : List WeightedEntry) (links : List LinkState) : List WeightedEntry :=
  wrrRebuildGo entries (links.filter (fun l => l.up))

/-- Eligibility of a WRR entry inside `select_paths` and `total_weight`:
the first link with the entry's id must exist, be up and have enough
tokens, and the entry weight must be strictly positive. -/
def wrrElig (links : List LinkState) (pkt : Nat) (e : WeightedEntry) : Bool :=
  match links.find? (fun l => l.id = e.id) with
  | none => false
  | some link => link.up && decide (pkt ≤ link.tokens) && decide (0 < e.weight)

/-- Selection loop of `WeightedRoundRobinScheduler::select_paths`: in one
pass over the entries, add `weight` to `current_weight` of each eligible
entry and track the entry with the largest updated `current_weight`
(strict comparison, so the earliest maximum wins; the initial best weight
is `f64::NEG_INFINITY`, modelled by the `none` accumulator). -/
def wrrLoop (links : List LinkState) (pkt : Nat) :
    List WeightedEntry → Nat → Option (Nat × ℚ) → List WeightedEntry × Option (Nat × ℚ)
  | [], _, best => ([], best)
  | e :: es, idx, best =>
    if wrrElig links pkt e then
      let e2 := { e with current_weight := e.current_weight + e.weight }
      let best2 := match best with
        | none => some (idx, e2.current_weight)
        | some (bi, bw) =>
          if bw < e2.current_weight then some (idx, e2.current_weight) else some (bi, bw)
      let r := wrrLoop links pkt es (idx + 1) best2
      (e2 :: r.1, r.2)
    else
      let r := wrrLoop links pkt es (idx + 1) best
      (e :: r.1, r.2)

/-- `WeightedRoundRobinScheduler::total_weight`: the sum of the weights of
the eligible entries. -/
def wrrTotal (entries : List WeightedEntry) (links : List LinkState) (pkt : Nat) : ℚ :=
  ((entries.filter (wrrElig links pkt)).map (fun e => e.weight)).sum

/-- `WeightedRoundRobinScheduler::find_link_mut` followed by the token
reservation: subtract `pkt_len` (saturating) from the first link carrying
the given id. -/
def reserveFirst (links : List LinkState) (id pkt : Nat) : List LinkState :=
  match links with
  | [] => []
  | l :: ls =>
    if l.id = id then { l with tokens := l.tokens - pkt } :: ls
    else l :: reserveFirst ls id pkt

/-- `WeightedRoundRobinScheduler::select_paths`: rebuild, run the selection
loop, and if a best entry was found subtract the total eligible weight from
its `current_weight` and reserve tokens on its link.  The `total <= 0.0`
early return of the source is kept although it is unreachable when a best
entry exists; the out-of-range entry access (a panic in Rust) is modelled
by the unreachable `none` branch returning the unchanged state. -/
def wrrSelect (entries0 : List WeightedEntry) (pkt : Nat) (links : List LinkState) :
    List Nat × List WeightedEntry × List LinkState :=
  let e1 := wrrRebuild entries0 links
  let r := wrrLoop links pkt e1 0 none
  match r.2 with
  | none => ([], r.1, links)
  | some (idx, _) =>
    let total := wrrTotal r.1 links pkt
    if total ≤ 0 then ([], r.1, links)
    else
      match r.1[idx]? with
      | none => ([], r.1, links)
      | some e =>
        ([e.id], r.1.set idx { e with current_weight := e.current_weight - total },
          reserveFirst links e.id pkt)

/-- `Candidate` of the Replica2 scheduler. -/
structure Candidate where
  index : Nat
  id : Nat
  eta : ℚ
deriving DecidableEq, Repr

/-- Sort key of `Replica2WeightedScheduler::select_paths`: ascending eta,
ties by ascending path id (`partial_cmp` never returns `None` on `ℚ`). -/
def candLE (a b : Candidate) : Bool :=
  decide (a.eta < b.eta) || (decide (a.eta = b.eta) && decide (a.id ≤ b.id))

/-- Loop of `Replica2WeightedScheduler::eligible_links`, carrying the
enumeration index: skip down links, count token-deficient up links, and
collect a candidate (index, id, eta) for each remaining link. -/
def eligibleLinksGo (cfg : Replica2Cfg) (pkt : Nat) : Nat → List LinkState → List Candidate × Nat
  | _, [] => ([], 0)
  | i, l :: ls =>
    let r := eligibleLinksGo cfg pkt (i + 1) ls
    if l.up = false then r
    else if l.tokens < pkt then (r.1, r.2 + 1)
    else ({ index := i, id := l.id, eta := computeEta cfg l } :: r.1, r.2)

/-- `Replica2WeightedScheduler::eligible_links`: the candidate list and the
number of token skips. -/
def eligibleLinks (cfg : Replica2Cfg) (pkt : Nat) (links : List LinkState) :
    List Candidate × Nat :=
  eligibleLinksGo cfg pkt 0 links

/-- Token reservation through `links.get_mut(candidate.index)`. -/
def reserveAt (links : List LinkState) (i pkt : Nat) : List LinkState :=
  match links[i]? with
  | some l => links.set i { l with tokens := l.tokens - pkt }
  | none => links

/-- `Scheduler::select_paths` for the three factory-built variants,
returning the selected path ids, the scheduler's post-call state, and the
updated link slice.  The Replica2 arm follows the source: effective
threshold `max(min_links_for_aggregation, 3)`; fall back (incrementing
`replica2_fallbacks` and accumulating the fallback's metrics) when too few
links are up or no candidate is eligible; reserve and return the single
candidate when there is exactly one; otherwise sort by (eta, id), take the
two lowest, reserve tokens on both and bump the primary/secondary
counters. -/
def selectPaths : SchedImpl → Nat → List LinkState → List Nat × SchedImpl × List LinkState
  | .mirror, pkt, links =>
    let r := mirrorSelect pkt links
    (r.1, .mirror, r.2)
  | .wrr entries, pkt, links =>
    let r := wrrSelect entries pkt links
    (r.1, .wrr r.2.1, r.2.2)
  | .replica2 minL cfg fb mets, pkt, links =>
    let min_links := max minL 3
    let links_up := (links.filter (fun l => l.up)).length
    if links_up < min_links then
      let fbr := selectPaths fb pkt links
      let mets2 := SchedulerMetrics.accumulate
        { mets with replica2_fallbacks := mets.replica2_fallbacks + 1 } (metricsOf fbr.2.1)
      (fbr.1, .replica2 minL cfg fbr.2.1 mets2, fbr.2.2)
    else
      let el := eligibleLinks cfg pkt links
      let mets1 := { mets with no_token_skips := mets.no_token_skips + el.2 }
      match el.1 with
      | [] =>
        let fbr := selectPaths fb pkt links
        let mets2 := SchedulerMetrics.accumulate
          { mets1 with replica2_fallbacks := mets1.replica2_fallbacks + 1 } (metricsOf fbr.2.1)
        (fbr.1, .replica2 minL cfg fbr.2.1 mets2, fbr.2.2)
      | [c] =>
        ([c.id],
          .replica2 minL cfg fb
            { mets1 with replica2_primary := mets1.replica2_primary + 1 },
          reserveAt links c.index pkt)
      | c1 :: c2 :: rest =>
        let sorted := (c1 :: c2 :: rest).mergeSort candLE
        let taken := sorted.take 2
        let links2 := taken.foldl (fun ls c => reserveAt ls c.index pkt) links
        let result := taken.map (fun c => c.id)
        let m2 := if result.isEmpty then mets1
          else { mets1 with replica2_primary := mets1.replica2_primary + 1 }
        let m3 := if 1 < result.length then
            { m2 with replica2_secondary := m2.replica2_secondary + 1 }
          else m2
        (result, .replica2 minL cfg fb m3, links2)

/-- Exclusion-swap set, modelling the `HashMap<String, bool>` behind
`EXCLUSION_SWAPS` as a total function with default `false` (which is what
`get(name).copied().unwrap_or(false)` reads). -/
def Swaps := String → Bool

/-- `is_swapped`. -/
def isSwapped (swaps : Swaps) (name : String) : Bool := swaps name

/-- `is_excluded`: walk the configured exclusion list; on the first match
return the negated swap bit, otherwise return the swap bit. -/
def isExcludedFn (name : String) (excl : List String) (swaps : Swaps) : Bool :=
  match excl with
  | [] => isSwapped swaps name
  | ex :: rest =>
    if ex = name then !(isSwapped swaps name) else isExcludedFn name rest swaps

/-- `swap_exclusion`: if the swap bit is set, remove the entry (lookup then
defaults to `false`); otherwise insert `true`. -/
def swapExclusion (swaps : Swaps) (ifname : String) : Swaps :=
  if isSwapped swaps ifname then
    fun n => if n = ifname then false else swaps n
  else
    fun n => if n = ifname then true else swaps n

/-- Model of `f64` for the weight file, where NaN and the infinities
matter: a finite rational, NaN, or a signed infinity. -/
inductive FVal where
  | fin (q : ℚ) : FVal
  | nan : FVal
  | posInf : FVal
  | negInf : FVal
deriving DecidableEq, Repr

/-- IEEE-754 `<=` on `FVal`: any comparison with NaN is false, `-inf` is
below everything else, `+inf` is above everything else. -/
def FVal.fle : FVal → FVal → Bool
  | .nan, _ => false
  | _, .nan => false
  | .negInf, _ => true
  | .fin _, .negInf => false
  | .fin a, .fin b => decide (a ≤ b)
  | .fin _, .posInf => true
  | .posInf, .posInf => true
  | .posInf, .fin _ => false
  | .posInf, .negInf => false

/-- State of `WeightManager`: the weight map (a `HashMap<String, f64>`,
modelled as a partial function) and the `u64` version counter.  The
filesystem is elided: `reload_if_needed` is the identity because the file
is unchanged between the calls under study, and persisting succeeds. -/
structure WeightManager where
  weights : String → Option FVal
  version : Nat

/-- Insertion step of `WeightManager::ensure_interfaces`: a missing name is
inserted at weight `1.0` and the changed flag is raised. -/
def ensureStep (acc : (String → Option FVal) × Bool) (name : String) :
    (String → Option FVal) × Bool :=
  match acc.1 name with
  | some _ => acc
  | none => (fun n => if n = name then some (.fin 1) else acc.1 n, true)

/-- `WeightManager::ensure_interfaces`: insert every missing requested name
at weight `1.0`; if anything changed, persist (assumed to succeed), which
bumps the version with `wrapping_add(1)`. -/
def ensureInterfaces (wm : WeightManager) (names : List String) : WeightManager :=
  let r := names.foldl ensureStep (wm.weights, false)
  if r.2 then { weights := r.1, version := (wm.version + 1) % 2 ^ 64 }
  else { weights := r.1, version := wm.version }

/-- `WeightManager::weights_for`: for each requested name take the stored
weight (default `1.0`), and replace it by `0.0` exactly when
`weight <= 0.0` holds under IEEE comparison. -/
def weightsFor (wm : WeightManager) (names : List String) : List (String × FVal) :=
  names.map (fun name =>
    let weight := (wm.weights name).getD (.fin 1)
    (name, if weight.fle (.fin 0) then .fin 0 else weight))

/-- Weight assignment as the claim words it, amended: `0.0` is substituted
exactly for stored weights that are IEEE-below-or-equal zero (negative
finite values, `-inf`, and zero itself); NaN and `+inf` pass through
unchanged; absent names get `1.0`. -/
def specWeightAmended (wm : WeightManager) (name : String) : FVal :=
  match wm.weights name with
  | none => .fin 1
  | some (.fin q) => if q ≤ 0 then .fin 0 else .fin q
  | some .negInf => .fin 0
  | some .nan => .nan
  | some .posInf => .posInf

/-- One server of `WeightedRoundRobinState` in main.rs. -/
structure WServer where
  name : String
  weight : ℚ
  current_weight : ℚ
deriving DecidableEq, Repr

/-- `WeightedRoundRobinState`, restricted to the fields `next_interface`
reads: the server list and the cached `total_weight` (which `rebuild` sets
to the sum of the server weights); `last_version` and `signature` only
gate `rebuild` and are not modelled. -/
structure WrrRotState where
  servers : List WServer
  total_weight : ℚ
deriving DecidableEq, Repr

/-- Selection loop of `WeightedRoundRobinState::next_interface`: one pass
adding each server's weight to its `current_weight` and tracking the
largest updated value (strict comparison, initial best
`f64::NEG_INFINITY`). -/
def rotLoop : List WServer → Nat → Option (Nat × ℚ) → List WServer × Option (Nat × ℚ)
  | [], _, best => ([], best)
  | s :: ss, idx, best =>
    let s2 := { s with current_weight := s.current_weight + s.weight }
    let best2 := match best with
      | none => some (idx, s2.current_weight)
      | some (bi, bw) =>
        if bw < s2.current_weight then some (idx, s2.current_weight) else some (bi, bw)
    let r := rotLoop ss (idx + 1) best2
    (s2 :: r.1, r.2)

/-- `WeightedRoundRobinState::next_interface`: `None` when the server list
is empty or the cached total weight is non-positive; otherwise run the
loop, subtract `total_weight` from the winner and return its name.  The
`none` fallbacks mirror unreachable branches of the source. -/
def nextInterface (st : WrrRotState) : Option String × WrrRotState :=
  if st.servers.isEmpty || decide (st.total_weight ≤ 0) then (none, st)
  else
    let r := rotLoop st.servers 0 none
    match r.2 with
    | some (i, _) =>
      match r.1[i]? with
      | some s =>
        (some s.name,
          { st with servers :=
              r.1.set i { s with current_weight := s.current_weight - st.total_weight } })
      | none => (none, { st with servers := r.1 })
    | none => (none, { st with servers := r.1 })

/-- State after `t` calls of `next_interface`. -/
def rotIter (st : WrrRotState) : Nat → WrrRotState
  | 0 => st
  | t + 1 => (nextInterface (rotIter st t)).2

/-- Name selected by call number `t` (0-based). -/
def rotSel (st : WrrRotState) (t : Nat) : Option String :=
  (nextInterface (rotIter st t)).1

/-- Number of selections of `name` during the window of `n` calls starting
at call `m`. -/
def rotCount (st : WrrRotState) (name : String) (m n : Nat) : Nat :=
  ((List.range n).filter (fun t => rotSel st (m + t) = some name)).length

/-- Generic strict-max tracking fold shared by the two selection loops:
the list holds `some v` for a considered value and `none` for a skipped
entry; the accumulator holds the best (index, value) so far, `none`
standing for `f64::NEG_INFINITY`. -/
def bestFold : List (Option ℚ) → Nat → Option (Nat × ℚ) → Option (Nat × ℚ)
  | [], _, b => b
  | none :: vs, i, b => bestFold vs (i + 1) b
  | some v :: vs, i, b =>
    bestFold vs (i + 1) (match b with
      | none => some (i, v)
      | some (bi, bw) => if bw < v then some (i, v) else some (bi, bw))

/-- Value list examined by the WRR scheduler loop: the updated
`current_weight` of each eligible entry, `none` for skipped entries. -/
def wrrVals (links : List LinkState) (pkt : Nat) (es : List WeightedEntry) : List (Option ℚ) :=
  es.map (fun e => if wrrElig links pkt e then some (e.current_weight + e.weight) else none)

/-- Entry list after the WRR scheduler loop: the eligible entries carry
their updated `current_weight`. -/
def wrrUpd (links : List LinkState) (pkt : Nat) (es : List WeightedEntry) : List WeightedEntry :=
  es.map (fun e =>
    if wrrElig links pkt e then { e with current_weight := e.current_weight + e.weight } else e)

/-- Value list examined by the rotation loop of main.rs: every server is
considered. -/
def rotVals (ss : List WServer) : List (Option ℚ) :=
  ss.map (fun s => some (s.current_weight + s.weight))

/-- Server list after the addition pass of the rotation loop. -/
def rotUpd (ss : List WServer) : List WServer :=
  ss.map (fun s => { s with current_weight := s.current_weight + s.weight })

/-- Token-reservation frame property of `select_paths` (for slices with
pairwise-distinct ids): every link whose id is returned lost exactly
`pkt_len` tokens (so it had at least `pkt_len`) and changed in no other
field, every other link is untouched, and the slice keeps its length. -/
def TokenReservation (pkt : Nat) (links links' : List LinkState) (result : List Nat) : Prop :=
  links'.length = links.length ∧
  ∀ (i : Nat) (l : LinkState), links[i]? = some l →
    (l.id ∈ result → links'[i]? = some { l with tokens := l.tokens - pkt } ∧ pkt ≤ l.tokens) ∧
    (l.id ∉ result → links'[i]? = some l)

/-- Cardinality behaviour of Replica2's selection, as amended: once the
number of up links reaches the effective threshold `max(min_links, 3)`,
two distinct ids are returned whenever at least two eligible candidates
exist, one id when exactly one exists, and none when none exists; below
the threshold the WRR fallback returns at most one id. -/
def ReplicaSelectCounts (minL pkt : Nat) (links : List LinkState) (result : List Nat) : Prop :=
  (max minL 3 ≤ (links.filter (fun l => l.up)).length →
    (2 ≤ (links.filter (eligB pkt)).length → result.length = 2 ∧ result.Nodup) ∧
    ((links.filter (eligB pkt)).length = 1 → result.length = 1) ∧
    ((links.filter (eligB pkt)).length = 0 → result = [])) ∧
  ((links.filter (fun l => l.up)).length < max minL 3 → result.length ≤ 1)

/-- Behaviour of one `WeightedRoundRobinScheduler::select_paths` call, as
amended: after the rebuild, each eligible entry gains its weight on
`current_weight`; if no entry is eligible nothing else happens and no id
is returned; otherwise the winner is an eligible entry whose updated
`current_weight` is maximal — ties resolved towards the earliest entry in
the rebuilt order, i.e. the first matching up link in the slice — the
total eligible weight is subtracted from the winner's `current_weight`,
tokens are reserved on the winner's link, and only the winner's id is
returned. -/
def WrrWinnerSpec (entries0 : List WeightedEntry) (pkt : Nat) (links : List LinkState)
    (out : List Nat × List WeightedEntry × List LinkState) : Prop :=
  ∃ (k : Nat) (ek : WeightedEntry),
    (wrrUpd links pkt (wrrRebuild entries0 links))[k]? = some ek ∧
    wrrElig links pkt ek = true ∧
    (∀ (i : Nat) (ei : WeightedEntry),
      (wrrUpd links pkt (wrrRebuild entries0 links))[i]? = some ei →
      wrrElig links pkt ei = true → ei.current_weight ≤ ek.current_weight) ∧
    (∀ (i : Nat) (ei : WeightedEntry), i < k →
      (wrrUpd links pkt (wrrRebuild entries0 links))[i]? = some ei →
      wrrElig links pkt ei = true → ei.current_weight < ek.current_weight) ∧
    out.1 = [ek.id] ∧
    out.2.1 = (wrrUpd links pkt (wrrRebuild entries0 links)).set k
      { ek with current_weight := ek.current_weight
          - wrrTotal (wrrUpd links pkt (wrrRebuild entries0 links)) links pkt } ∧
    out.2.2 = reserveFirst links ek.id pkt

/-- Full behaviour of one amended WRR call (see `WrrWinnerSpec` for the
winner clause). -/
def WrrStepSpec (entries0 : List WeightedEntry) (pkt : Nat) (links : List LinkState)
    (out : List Nat × List WeightedEntry × List LinkState) : Prop :=
  ((∀ e ∈ wrrRebuild entries0 links, wrrElig links pkt e = false) →
    out = ([], wrrRebuild entries0 links, links)) ∧
  ∀ (j : Nat) (ej : WeightedEntry),
    (wrrRebuild entries0 links)[j]? = some ej → wrrElig links pkt ej = true →
    WrrWinnerSpec entries0 pkt links out

/-- Initial state of the main.rs WRR rotation right after `rebuild`: a
non-empty server list with strictly positive weights, `total_weight` equal
to their sum, all accumulators at zero, and pairwise-distinct names. -/
def RotStart (st : WrrRotState) : Prop :=
  st.servers ≠ [] ∧ (∀ s ∈ st.servers, 0 < s.weight) ∧
  st.total_weight = (st.servers.map (fun s => s.weight)).sum ∧
  (∀ s ∈ st.servers, s.current_weight = 0) ∧
  (st.servers.map (fun s => s.name)).Nodup

/-- Invariant maintained by the rotation: non-empty servers with positive
weights, cached total equal to the weight sum, accumulators summing to
zero and each strictly above `-total_weight`, pairwise-distinct names. -/
def RotInv (st : WrrRotState) : Prop :=
  st.servers ≠ [] ∧ (∀ s ∈ st.servers, 0 < s.weight) ∧
  st.total_weight = (st.servers.map (fun s => s.weight)).sum ∧
  (st.servers.map (fun s => s.current_weight)).sum = 0 ∧
  (∀ s ∈ st.servers, -st.total_weight < s.current_weight) ∧
  (st.servers.map (fun s => s.name)).Nodup

/-! Theorems.  Helper lemmas come first, the per-claim theorems are marked
by their claim ids. -/

theorem mirrorSelect_fst (pkt : Nat) (links : List LinkState) :
    (mirrorSelect pkt links).1 = (links.filter (eligB pkt)).map (fun l => l.id) := by
  induction links with
  | nil => rfl
  | cons l ls ih =>
    by_cases h : eligB pkt l <;> simp [mirrorSelect, h, ih]

/-- C3: `MirrorScheduler::select_paths` returns exactly the ids of the
links with `up = true` and `tokens ≥ pkt_len`, in slice order. -/
theorem mirror_select_exactly_eligible (pkt : Nat) (links : List LinkState) :
    (mirrorSelect pkt links).1 = (links.filter (eligB pkt)).map (fun l => l.id) :=
  mirrorSelect_fst pkt links

/-- C4 counterexample: at `send_bps = 1/2`, `inflight_bytes = 1`, zero RTT
and loss, unit weight and the default Replica2 config, the code's cost is
`2` while the specification's formula with divisor `max(send_bps, 1)`
yields `1`. -/
theorem compute_eta_counterexample :
    computeEta replica2CfgDefault
      { id := 1, up := true, weight := 1, smoothed_rtt := 0, loss := 0,
        send_bps := 1 / 2, inflight_bytes := 1, tokens := 0 } = 2 ∧
    specEta replica2CfgDefault
      { id := 1, up := true, weight := 1, smoothed_rtt := 0, loss := 0,
        send_bps := 1 / 2, inflight_bytes := 1, tokens := 0 } = 1 := by
  constructor
  · simp only [computeEta, replica2CfgDefault]
    norm_num [max_def]
  · simp only [specEta, replica2CfgDefault]
    norm_num [max_def]

/-- C4 amended: `compute_eta` equals the specification's formula with the
queue divisor amended to `send_bps` when strictly positive and `1`
otherwise. -/
theorem compute_eta_amended (cfg : Replica2Cfg) (l : LinkState) :
    computeEta cfg l = specEtaAmended cfg l := rfl

theorem isSwapped_swapExclusion (swaps : Swaps) (name : String) :
    isSwapped (swapExclusion swaps name) name = !(isSwapped swaps name) := by
  by_cases h : swaps name <;> simp [swapExclusion, isSwapped, h]

theorem isExcludedFn_eq_xor (name : String) (excl : List String) (swaps : Swaps) :
    isExcludedFn name excl swaps = Bool.xor (excl.contains name) (isSwapped swaps name) := by
  induction excl with
  | nil => simp [isExcludedFn]
  | cons ex rest ih =>
    by_cases h : ex = name
    · subst h
      by_cases hs : isSwapped swaps ex <;> simp [isExcludedFn, hs]
    · have hne : (name == ex) = false := by
        simp only [beq_eq_false_iff_ne, ne_eq]
        exact fun he => h he.symm
      simp [isExcludedFn, h, ih, List.contains_cons, hne]
      intro he
      exact absurd he.symm h

/-- C8: effective exclusion is `configured_excluded XOR swapped`, and
toggling the swap bit twice restores the original effective exclusion. -/
theorem is_excluded_xor_swap (name : String) (excl : List String) (swaps : Swaps) :
    isExcludedFn name excl swaps
      = Bool.xor (excl.contains name) (isSwapped swaps name) ∧
    isExcludedFn name excl (swapExclusion (swapExclusion swaps name) name)
      = isExcludedFn name excl swaps := by
  refine ⟨isExcludedFn_eq_xor name excl swaps, ?_⟩
  rw [isExcludedFn_eq_xor, isExcludedFn_eq_xor, isSwapped_swapExclusion,
    isSwapped_swapExclusion, Bool.not_not]

/-- C10: `SchedulerFactory::build` succeeds for Mirror, WRR and Replica2
for every configuration, fails for FecKn with exactly
`Unsupported("fec_kn")`, and produces no other error. -/
theorem scheduler_factory_build_total (cfg : AggregationConfig) :
    (∃ s, SchedulerFactory.build .Mirror cfg = .ok s) ∧
    (∃ s, SchedulerFactory.build .WeightedRoundRobin cfg = .ok s) ∧
    (∃ s, SchedulerFactory.build .Replica2Weighted cfg = .ok s) ∧
    SchedulerFactory.build .FecKn cfg = .error (.Unsupported ("fec_kn")) ∧
    ∀ alg e, SchedulerFactory.build alg cfg = .error e →
      alg = .FecKn ∧ e = .Unsupported ("fec_kn") := by
  refine ⟨⟨_, rfl⟩, ⟨_, rfl⟩, ⟨_, rfl⟩, rfl, ?_⟩
  intro alg e h
  cases alg
  · simp [SchedulerFactory.build] at h
  · simp [SchedulerFactory.build] at h
  · simp [SchedulerFactory.build] at h
  · simp only [SchedulerFactory.build, Except.error.injEq] at h
    exact ⟨rfl, h.symm⟩

/-- C10 witness at the default-style configuration. -/
theorem scheduler_factory_build_total_witness :
    (∃ s, SchedulerFactory.build .Mirror
      { min_links_for_aggregation := 1, algorithm := .Mirror,
        replica2 := replica2CfgDefault } = .ok s) ∧
    (∃ s, SchedulerFactory.build .WeightedRoundRobin
      { min_links_for_aggregation := 1, algorithm := .Mirror,
        replica2 := replica2CfgDefault } = .ok s) ∧
    (∃ s, SchedulerFactory.build .Replica2Weighted
      { min_links_for_aggregation := 1, algorithm := .Mirror,
        replica2 := replica2CfgDefault } = .ok s) ∧
    SchedulerFactory.build .FecKn
      { min_links_for_aggregation := 1, algorithm := .Mirror,
        replica2 := replica2CfgDefault } = .error (.Unsupported ("fec_kn")) ∧
    ∀ alg e, SchedulerFactory.build alg
      { min_links_for_aggregation := 1, algorithm := .Mirror,
        replica2 := replica2CfgDefault } = .error e →
      alg = .FecKn ∧ e = .Unsupported ("fec_kn") :=
  scheduler_factory_build_total
    { min_links_for_aggregation := 1, algorithm := .Mirror,
      replica2 := replica2CfgDefault }

/-- C6 counterexample: a stored NaN weight is returned unchanged by
`weights_for`, not substituted by `0.0`. -/
theorem weights_for_nan_counterexample :
    weightsFor { weights := fun n => if n = "a" then some .nan else none, version := 0 }
      ["a"] = [("a", FVal.nan)] ∧ FVal.nan ≠ FVal.fin 0 := by
  constructor
  · simp [weightsFor, FVal.fle]
  · intro h
    cases h

/-- C6 amended: `weights_for` assigns each requested name its stored
weight with `0.0` substituted exactly for IEEE-non-positive values
(negative finite values, zero and `-inf`), passes NaN and `+inf` through
unchanged, and uses `1.0` for absent names. -/
theorem weights_for_amended (wm : WeightManager) (names : List String) :
    weightsFor wm names = names.map (fun n => (n, specWeightAmended wm n)) := by
  unfold weightsFor
  apply List.map_congr_left
  intro name _
  rcases h : wm.weights name with _ | w
  · simp [h, specWeightAmended, FVal.fle]
  · rcases w with q | _ | _ | _
    · by_cases hq : q ≤ 0 <;> simp [h, specWeightAmended, FVal.fle, hq]
    · simp [h, specWeightAmended, FVal.fle]
    · simp [h, specWeightAmended, FVal.fle]
    · simp [h, specWeightAmended, FVal.fle]

theorem ensureInterfaces_weights (wm : WeightManager) (names : List String) :
    (ensureInterfaces wm names).weights = (names.foldl ensureStep (wm.weights, false)).1 := by
  unfold ensureInterfaces
  by_cases h : (names.foldl ensureStep (wm.weights, false)).2 <;> simp [h]

theorem foldl_ensureStep_weights (names : List String)
    (acc : (String → Option FVal) × Bool) (n : String) :
    (names.foldl ensureStep acc).1 n = acc.1 n ∨
    ((names.foldl ensureStep acc).1 n = some (.fin 1) ∧ acc.1 n = none) := by
  induction names generalizing acc with
  | nil => exact Or.inl rfl
  | cons name rest ih =>
    simp only [List.foldl_cons]
    rcases hm : acc.1 name with _ | v
    · have hstep : ensureStep acc name
          = (fun x => if x = name then some (.fin 1) else acc.1 x, true) := by
        simp [ensureStep, hm]
      rw [hstep]
      rcases ih (fun x => if x = name then some (.fin 1) else acc.1 x, true) with h | ⟨h1, h2⟩
      · by_cases hn : n = name
        · subst hn
          simp only [if_pos rfl] at h
          exact Or.inr ⟨h, hm⟩
        · simp only [if_neg hn] at h
          exact Or.inl h
      · simp only at h2
        by_cases hn : n = name
        · subst hn
          simp [if_pos rfl] at h2
        · simp only [if_neg hn] at h2
          exact Or.inr ⟨h1, h2⟩
    · have hstep : ensureStep acc name = acc := by
        simp [ensureStep, hm]
      rw [hstep]
      exact ih acc

theorem foldl_ensureStep_present (names : List String)
    (acc : (String → Option FVal) × Bool) :
    ∀ n ∈ names, ∃ v, (names.foldl ensureStep acc).1 n = some v := by
  induction names generalizing acc with
  | nil => intro n hn; cases hn
  | cons name rest ih =>
    intro n hn
    simp only [List.foldl_cons]
    rcases List.mem_cons.mp hn with hn | hn
    · subst hn
      have hsome : ∃ v, (ensureStep acc n).1 n = some v := by
        rcases hm : acc.1 n with _ | v
        · exact ⟨.fin 1, by simp [ensureStep, hm]⟩
        · exact ⟨v, by simp [ensureStep, hm]⟩
      rcases hsome with ⟨v, hv⟩
      rcases foldl_ensureStep_weights rest (ensureStep acc n) n with h | ⟨h1, _⟩
      · exact ⟨v, h.trans hv⟩
      · exact ⟨.fin 1, h1⟩
    · exact ih (ensureStep acc name) n hn

theorem foldl_ensureStep_nochange (names : List String)
    (acc : (String → Option FVal) × Bool)
    (h : ∀ n ∈ names, ∃ v, acc.1 n = some v) :
    names.foldl ensureStep acc = acc := by
  induction names with
  | nil => rfl
  | cons name rest ih =>
    have hstep : ensureStep acc name = acc := by
      rcases h name (List.mem_cons_self name rest) with ⟨v, hv⟩
      simp [ensureStep, hv]
    simp only [List.foldl_cons, hstep]
    exact ih (fun n hn => h n (List.mem_cons_of_mem name hn))

/-- C7 counterexample: an interface already stored at weight `-1.0` keeps
that negative weight after `ensure_interfaces` runs on it. -/
theorem ensure_interfaces_negative_counterexample :
    (ensureInterfaces
      { weights := fun n => if n = "a" then some (.fin (-1)) else none, version := 0 }
      ["a"]).weights "a" = some (.fin (-1)) ∧ ((-1 : ℚ) < 0) := by
  refine ⟨?_, by norm_num⟩
  rw [ensureInterfaces_weights]
  simp [ensureStep]

/-- C7 amended: `ensure_interfaces` is idempotent, and it never introduces
a negative weight — every stored weight after the call is either exactly
the weight stored before or the `1.0` inserted for a previously-missing
name. -/
theorem ensure_interfaces_amended (wm : WeightManager) (names : List String) :
    ensureInterfaces (ensureInterfaces wm names) names = ensureInterfaces wm names ∧
    ∀ n : String, (ensureInterfaces wm names).weights n = wm.weights n ∨
      ((ensureInterfaces wm names).weights n = some (.fin 1) ∧ wm.weights n = none) := by
  constructor
  · have hpres : ∀ n ∈ names, ∃ v, (ensureInterfaces wm names).weights n = some v := by
      intro n hn
      rw [ensureInterfaces_weights]
      exact foldl_ensureStep_present names (wm.weights, false) n hn
    have hfold : names.foldl ensureStep ((ensureInterfaces wm names).weights, false)
        = ((ensureInterfaces wm names).weights, false) :=
      foldl_ensureStep_nochange names _ (fun n hn => hpres n hn)
    show (if (names.foldl ensureStep ((ensureInterfaces wm names).weights, false)).2 then _
      else _) = ensureInterfaces wm names
    rw [hfold]
    rfl
  · intro n
    rw [ensureInterfaces_weights]
    exact foldl_ensureStep_weights names (wm.weights, false) n

theorem bestFold_acc (vs : List (Option ℚ)) (i bi : Nat) (bw : ℚ) :
    bestFold vs i (some (bi, bw)) = match bestFold vs i none with
      | none => some (bi, bw)
      | some (j, v) => if bw < v then some (j, v) else some (bi, bw) := by
  induction vs generalizing i bi bw with
  | nil => rfl
  | cons x vs ih =>
    cases x with
    | none => exact ih (i + 1) bi bw
    | some v =>
      show bestFold vs (i + 1) (if bw < v then some (i, v) else some (bi, bw)) = _
      have hrec : bestFold (some v :: vs) i none = bestFold vs (i + 1) (some (i, v)) := rfl
      rw [hrec, ih (i + 1) i v]
      by_cases hbv : bw < v
      · rw [if_pos hbv, ih (i + 1) i v]
        rcases hbase : bestFold vs (i + 1) none with _ | ⟨j, u⟩
        · simp [if_pos hbv]
        · by_cases hvu : v < u
          · have : bw < u := hbv.trans hvu
            simp [if_pos hvu, if_pos this]
          · simp [if_neg hvu, if_pos hbv]
      · rw [if_neg hbv, ih (i + 1) bi bw]
        rcases hbase : bestFold vs (i + 1) none with _ | ⟨j, u⟩
        · simp [if_neg hbv]
        · by_cases hvu : v < u
          · simp [if_pos hvu]
          · have : ¬ bw < v := hbv
            have hle : u ≤ v := not_lt.mp hvu
            have hbu : ¬ bw < u := fun h => hbv (lt_of_lt_of_le h hle)
            simp [if_neg hvu, if_neg hbv, if_neg hbu]

theorem bestFold_acc_isSome (vs : List (Option ℚ)) (i bi : Nat) (bw : ℚ) :
    (bestFold vs i (some (bi, bw))).isSome := by
  rw [bestFold_acc]
  rcases bestFold vs i none with _ | ⟨j, v⟩
  · rfl
  · by_cases h : bw < v <;> simp [h]

theorem bestFold_none_iff (vs : List (Option ℚ)) (i : Nat) :
    bestFold vs i none = none ↔ ∀ x ∈ vs, x = none := by
  induction vs generalizing i with
  | nil => simp [bestFold]
  | cons x vs ih =>
    cases x with
    | none =>
      show bestFold vs (i + 1) none = none ↔ _
      rw [ih (i + 1)]
      simp
    | some v =>
      show bestFold vs (i + 1) (some (i, v)) = none ↔ _
      constructor
      · intro h
        have := bestFold_acc_isSome vs (i + 1) i v
        rw [h] at this
        cases this
      · intro h
        have := h (some v) (List.mem_cons_self _ _)
        cases this

theorem bestFold_acc_none (vs : List (Option ℚ)) (i bi : Nat) (bw : ℚ)
    (h : bestFold vs i none = none) :
    bestFold vs i (some (bi, bw)) = some (bi, bw) := by
  rw [bestFold_acc, h]

theorem bestFold_acc_some (vs : List (Option ℚ)) (i bi j : Nat) (bw v : ℚ)
    (h : bestFold vs i none = some (j, v)) :
    bestFold vs i (some (bi, bw)) = if bw < v then some (j, v) else some (bi, bw) := by
  rw [bestFold_acc, h]

theorem bestFold_shift (vs : List (Option ℚ)) (d : Nat) :
    bestFold vs d none = (bestFold vs 0 none).map (fun p => (p.1 + d, p.2)) := by
  induction vs generalizing d with
  | nil => rfl
  | cons x vs ih =>
    cases x with
    | none =>
      show bestFold vs (d + 1) none = ((bestFold vs 1 none).map _)
      rw [ih (d + 1), ih 1, Option.map_map]
      rcases bestFold vs 0 none with _ | ⟨j, v⟩
      · rfl
      · simp [Function.comp]
        omega
    | some v =>
      show bestFold vs (d + 1) (some (d, v)) = ((bestFold vs 1 (some (0, v))).map _)
      rcases hbase : bestFold vs 0 none with _ | ⟨j, u⟩
      · have l1 : bestFold vs (d + 1) none = none := by
          rw [ih (d + 1), hbase]; rfl
        have l2 : bestFold vs 1 none = none := by
          rw [ih 1, hbase]; rfl
        rw [bestFold_acc_none vs (d + 1) d v l1, bestFold_acc_none vs 1 0 v l2]
        simp
      · have l1 : bestFold vs (d + 1) none = some (j + (d + 1), u) := by
          rw [ih (d + 1), hbase]; rfl
        have l2 : bestFold vs 1 none = some (j + 1, u) := by
          rw [ih 1, hbase]; rfl
        rw [bestFold_acc_some vs (d + 1) d (j + (d + 1)) v u l1,
          bestFold_acc_some vs 1 0 (j + 1) v u l2]
        by_cases hvu : v < u
        · rw [if_pos hvu, if_pos hvu]
          simp
          omega
        · rw [if_neg hvu, if_neg hvu]
          simp

theorem bestFold_some_spec (vs : List (Option ℚ)) (j : Nat) (v : ℚ)
    (h : bestFold vs 0 none = some (j, v)) :
    vs[j]? = some (some v) ∧
    (∀ (k : Nat) (w : ℚ), vs[k]? = some (some w) → w ≤ v) ∧
    (∀ (k : Nat) (w : ℚ), k < j → vs[k]? = some (some w) → w < v) := by
  induction vs generalizing j v with
  | nil => cases h
  | cons x vs ih =>
    cases x with
    | none =>
      have hstep : bestFold (none :: vs) 0 none = bestFold vs 1 none := rfl
      rw [hstep, bestFold_shift vs 1] at h
      rcases hbase : bestFold vs 0 none with _ | ⟨j0, v0⟩
      · rw [hbase] at h; cases h
      · rw [hbase] at h
        have h' : ((j0 + 1 : Nat), v0) = (j, v) := Option.some.inj h
        have hj : j0 + 1 = j := congrArg Prod.fst h'
        have hv : v0 = v := congrArg Prod.snd h'
        subst hj; subst hv
        obtain ⟨h1, h2, h3⟩ := ih j0 v0 hbase
        refine ⟨by simpa using h1, ?_, ?_⟩
        · intro k w hk
          cases k with
          | zero => simp at hk
          | succ k => exact h2 k w (by simpa using hk)
        · intro k w hklt hk
          cases k with
          | zero => simp at hk
          | succ k => exact h3 k w (by omega) (by simpa using hk)
    | some v0 =>
      have hstep : bestFold (some v0 :: vs) 0 none = bestFold vs 1 (some (0, v0)) := rfl
      rw [hstep] at h
      rcases hbase : bestFold vs 0 none with _ | ⟨j1, u⟩
      · have l2 : bestFold vs 1 none = none := by
          rw [bestFold_shift vs 1, hbase]; rfl
        rw [bestFold_acc_none vs 1 0 v0 l2] at h
        have h' : ((0 : Nat), v0) = (j, v) := Option.some.inj h
        have hj : (0 : Nat) = j := congrArg Prod.fst h'
        have hv : v0 = v := congrArg Prod.snd h'
        subst hj; subst hv
        have hall : ∀ x ∈ vs, x = none := (bestFold_none_iff vs 0).mp hbase
        refine ⟨by simp, ?_, ?_⟩
        · intro k w hk
          cases k with
          | zero =>
            simp at hk
            exact le_of_eq hk.symm
          | succ k =>
            exfalso
            have hmem : (some w : Option ℚ) ∈ vs :=
              List.getElem?_mem (by simpa using hk)
            cases hall (some w) hmem
        · intro k w hklt hk
          omega
      · have l2 : bestFold vs 1 none = some (j1 + 1, u) := by
          rw [bestFold_shift vs 1, hbase]; rfl
        rw [bestFold_acc_some vs 1 0 (j1 + 1) v0 u l2] at h
        obtain ⟨h1, h2, h3⟩ := ih j1 u hbase
        by_cases hvu : v0 < u
        · rw [if_pos hvu] at h
          have h' : ((j1 + 1 : Nat), u) = (j, v) := Option.some.inj h
          have hj : j1 + 1 = j := congrArg Prod.fst h'
          have hv : u = v := congrArg Prod.snd h'
          subst hj; subst hv
          refine ⟨by simpa using h1, ?_, ?_⟩
          · intro k w hk
            cases k with
            | zero =>
              simp at hk
              subst hk
              exact le_of_lt hvu
            | succ k => exact h2 k w (by simpa using hk)
          · intro k w hklt hk
            cases k with
            | zero =>
              simp at hk
              subst hk
              exact hvu
            | succ k => exact h3 k w (by omega) (by simpa using hk)
        · rw [if_neg hvu] at h
          have h' : ((0 : Nat), v0) = (j, v) := Option.some.inj h
          have hj : (0 : Nat) = j := congrArg Prod.fst h'
          have hv : v0 = v := congrArg Prod.snd h'
          subst hj; subst hv
          have hle : u ≤ v0 := not_lt.mp hvu
          refine ⟨by simp, ?_, ?_⟩
          · intro k w hk
            cases k with
            | zero =>
              simp at hk
              exact le_of_eq hk.symm
            | succ k =>
              exact (h2 k w (by simpa using hk)).trans hle
          · intro k w hklt hk
            omega

theorem wrrElig_cw (links : List LinkState) (pkt : Nat) (e : WeightedEntry) (x : ℚ) :
    wrrElig links pkt { e with current_weight := x } = wrrElig links pkt e := rfl

theorem wrrElig_iff (links : List LinkState) (pkt : Nat) (e : WeightedEntry) :
    wrrElig links pkt e = true ↔
    ∃ link, links.find? (fun l => decide (l.id = e.id)) = some link ∧
      link.up = true ∧ pkt ≤ link.tokens ∧ 0 < e.weight := by
  rcases hf : links.find? (fun l => decide (l.id = e.id)) with _ | link
  · simp [wrrElig, hf]
  · simp [wrrElig, hf, and_assoc]

theorem wrrElig_weight_pos (links : List LinkState) (pkt : Nat) (e : WeightedEntry)
    (h : wrrElig links pkt e = true) : 0 < e.weight := by
  obtain ⟨_, _, _, _, hw⟩ := (wrrElig_iff links pkt e).mp h
  exact hw

theorem wrrLoop_eq (links : List LinkState) (pkt : Nat) (es : List WeightedEntry)
    (idx : Nat) (best : Option (Nat × ℚ)) :
    wrrLoop links pkt es idx best
      = (wrrUpd links pkt es, bestFold (wrrVals links pkt es) idx best) := by
  induction es generalizing idx best with
  | nil => rfl
  | cons e es ih =>
    by_cases helig : wrrElig links pkt e
    · simp only [wrrLoop, helig, if_true, ih, wrrUpd, wrrVals, List.map_cons]
      rfl
    · simp only [wrrLoop, helig, if_false, ih, wrrUpd, wrrVals, List.map_cons,
        Bool.false_eq_true]
      rfl

theorem wrrVals_getElem (links : List LinkState) (pkt : Nat) (es : List WeightedEntry)
    (i : Nat) (e : WeightedEntry) (he : es[i]? = some e) (helig : wrrElig links pkt e = true) :
    (wrrVals links pkt es)[i]? = some (some (e.current_weight + e.weight)) := by
  simp [wrrVals, List.getElem?_map, he, helig]

theorem wrrUpd_getElem (links : List LinkState) (pkt : Nat) (es : List WeightedEntry)
    (i : Nat) (e : WeightedEntry) (he : es[i]? = some e) (helig : wrrElig links pkt e = true) :
    (wrrUpd links pkt es)[i]? = some { e with current_weight := e.current_weight + e.weight } := by
  simp [wrrUpd, List.getElem?_map, he, helig]

theorem wrrUpd_getElem_rev (links : List LinkState) (pkt : Nat) (es : List WeightedEntry)
    (i : Nat) (ei : WeightedEntry) (hi : (wrrUpd links pkt es)[i]? = some ei)
    (helig : wrrElig links pkt ei = true) :
    ∃ e0, es[i]? = some e0 ∧ wrrElig links pkt e0 = true ∧
      ei = { e0 with current_weight := e0.current_weight + e0.weight } := by
  rw [wrrUpd, List.getElem?_map] at hi
  rcases h0 : es[i]? with _ | e0
  · rw [h0] at hi; cases hi
  · rw [h0] at hi
    simp only [Option.map_some'] at hi
    have hi' := Option.some.inj hi
    by_cases h1 : wrrElig links pkt e0
    · rw [if_pos h1] at hi'
      exact ⟨e0, rfl, h1, hi'.symm⟩
    · exfalso
      rw [if_neg h1] at hi'
      rw [hi'] at h1
      exact h1 helig

theorem wrrSelect_spec (entries0 : List WeightedEntry) (pkt : Nat) (links : List LinkState) :
    WrrStepSpec entries0 pkt links (wrrSelect entries0 pkt links) := by
  have hloop := wrrLoop_eq links pkt (wrrRebuild entries0 links) 0 none
  constructor
  · intro hall
    have hvals : ∀ x ∈ wrrVals links pkt (wrrRebuild entries0 links), x = none := by
      intro x hx
      obtain ⟨e, he, rfl⟩ := List.mem_map.mp hx
      simp [hall e he]
    have hupd : wrrUpd links pkt (wrrRebuild entries0 links) = wrrRebuild entries0 links := by
      unfold wrrUpd
      have hcongr : ∀ e ∈ wrrRebuild entries0 links,
          (if wrrElig links pkt e then
            { e with current_weight := e.current_weight + e.weight } else e) = id e := by
        intro e he
        simp [hall e he]
      rw [List.map_congr_left hcongr, List.map_id]
    have hnone : bestFold (wrrVals links pkt (wrrRebuild entries0 links)) 0 none = none :=
      (bestFold_none_iff _ 0).mpr hvals
    show wrrSelect entries0 pkt links = _
    simp only [wrrSelect]
    rw [hloop, hnone, hupd]
  · intro j ej hj helig
    have hvalj := wrrVals_getElem links pkt (wrrRebuild entries0 links) j ej hj helig
    rcases hbf : bestFold (wrrVals links pkt (wrrRebuild entries0 links)) 0 none
      with _ | ⟨k, v⟩
    · exfalso
      have hall := (bestFold_none_iff _ 0).mp hbf
      have hmem := List.getElem?_mem hvalj
      cases hall _ hmem
    · obtain ⟨hk, hmax, hstrict⟩ := bestFold_some_spec _ _ _ hbf
      rw [wrrVals, List.getElem?_map] at hk
      rcases h0 : (wrrRebuild entries0 links)[k]? with _ | e0
      · rw [h0] at hk; cases hk
      · rw [h0] at hk
        simp only [Option.map_some'] at hk
        have helig0 : wrrElig links pkt e0 = true := by
          by_contra hne
          rw [if_neg hne] at hk
          simp at hk
        rw [if_pos helig0] at hk
        have hv : e0.current_weight + e0.weight = v :=
          Option.some.inj (Option.some.inj hk)
        subst hv
        set ek : WeightedEntry :=
          { e0 with current_weight := e0.current_weight + e0.weight } with hek
        have hupdk : (wrrUpd links pkt (wrrRebuild entries0 links))[k]? = some ek :=
          wrrUpd_getElem links pkt _ k e0 h0 helig0
        have heligk : wrrElig links pkt ek = true := by
          rw [hek, wrrElig_cw]
          exact helig0
        have hmax' : ∀ (i : Nat) (ei : WeightedEntry),
            (wrrUpd links pkt (wrrRebuild entries0 links))[i]? = some ei →
            wrrElig links pkt ei = true → ei.current_weight ≤ ek.current_weight := by
          intro i ei hi heligi
          obtain ⟨e1, he1, helig1, rfl⟩ := wrrUpd_getElem_rev links pkt _ i ei hi heligi
          exact hmax i _ (wrrVals_getElem links pkt _ i e1 he1 helig1)
        have hstrict' : ∀ (i : Nat) (ei : WeightedEntry), i < k →
            (wrrUpd links pkt (wrrRebuild entries0 links))[i]? = some ei →
            wrrElig links pkt ei = true → ei.current_weight < ek.current_weight := by
          intro i ei hik hi heligi
          obtain ⟨e1, he1, helig1, rfl⟩ := wrrUpd_getElem_rev links pkt _ i ei hi heligi
          exact hstrict i _ hik (wrrVals_getElem links pkt _ i e1 he1 helig1)
        have htot : 0 < wrrTotal (wrrUpd links pkt (wrrRebuild entries0 links)) links pkt := by
          have hmem : ek ∈ (wrrUpd links pkt (wrrRebuild entries0 links)).filter
              (wrrElig links pkt) :=
            List.mem_filter.mpr ⟨List.getElem?_mem hupdk, heligk⟩
          have hmemw : ek.weight ∈ ((wrrUpd links pkt (wrrRebuild entries0 links)).filter
              (wrrElig links pkt)).map (fun e => e.weight) :=
            List.mem_map.mpr ⟨ek, hmem, rfl⟩
          unfold wrrTotal
          apply List.sum_pos
          · intro x hx
            obtain ⟨e2, he2, rfl⟩ := List.mem_map.mp hx
            exact wrrElig_weight_pos links pkt e2 (List.of_mem_filter he2)
          · exact List.ne_nil_of_mem hmemw
        have hout : wrrSelect entries0 pkt links
            = ([ek.id],
              (wrrUpd links pkt (wrrRebuild entries0 links)).set k
                { ek with current_weight := ek.current_weight
                    - wrrTotal (wrrUpd links pkt (wrrRebuild entries0 links)) links pkt },
              reserveFirst links ek.id pkt) := by
          simp only [wrrSelect]
          rw [hloop, hbf]
          dsimp only
          rw [if_neg (not_le.mpr htot), hupdk]
        exact ⟨k, ek, hupdk, heligk, hmax', hstrict',
          by rw [hout], by rw [hout], by rw [hout]⟩

theorem nodup_ids_index (links : List LinkState)
    (h : (links.map (fun l => l.id)).Nodup) (i j : Nat) (a b : LinkState)
    (ha : links[i]? = some a) (hb : links[j]? = some b) (hid : a.id = b.id) : i = j := by
  have hi : (links.map (fun l => l.id))[i]? = some a.id := by
    simp [List.getElem?_map, ha]
  have hj : (links.map (fun l => l.id))[j]? = some b.id := by
    simp [List.getElem?_map, hb]
  have hlen : i < (links.map (fun l => l.id)).length := by
    rw [List.length_map]
    exact (List.getElem?_eq_some_iff.mp ha).1
  exact List.getElem?_inj hlen h (by rw [hi, hj, hid])

theorem reserveAt_length (links : List LinkState) (k pkt : Nat) :
    (reserveAt links k pkt).length = links.length := by
  rcases h : links[k]? with _ | l
  · simp [reserveAt, h]
  · simp [reserveAt, h, List.length_set]

theorem reserveAt_getElem (links : List LinkState) (k pkt i : Nat) :
    (reserveAt links k pkt)[i]? = if k = i then
      (links[k]?).map (fun l => { l with tokens := l.tokens - pkt }) else links[i]? := by
  rcases h : links[k]? with _ | l
  · by_cases hk : k = i
    · subst hk
      simp [reserveAt, h]
    · simp [reserveAt, h, hk]
  · by_cases hk : k = i
    · subst hk
      have hlen : k < links.length := (List.getElem?_eq_some_iff.mp h).1
      simp [reserveAt, h, List.getElem?_set, hlen]
    · simp [reserveAt, h, List.getElem?_set, hk]

theorem reserveFirst_length (links : List LinkState) (id pkt : Nat) :
    (reserveFirst links id pkt).length = links.length := by
  induction links with
  | nil => rfl
  | cons l0 ls ih =>
    by_cases h0 : l0.id = id <;> simp [reserveFirst, h0, ih]

theorem reserveFirst_getElem (links : List LinkState) (id pkt : Nat)
    (h : (links.map (fun l => l.id)).Nodup) (i : Nat) (l : LinkState)
    (hl : links[i]? = some l) :
    (reserveFirst links id pkt)[i]? =
      if l.id = id then some { l with tokens := l.tokens - pkt } else some l := by
  induction links generalizing i with
  | nil => simp at hl
  | cons l0 ls ih =>
    have hnd := h
    rw [List.map_cons, List.nodup_cons] at hnd
    by_cases h0 : l0.id = id
    · cases i with
      | zero =>
        have hl0 : l0 = l := by simpa using hl
        subst hl0
        simp [reserveFirst, h0]
      | succ i =>
        have hls : ls[i]? = some l := by simpa using hl
        have hlid : l.id ≠ id := by
          intro hlid
          have hmem : l.id ∈ ls.map (fun l => l.id) :=
            List.mem_map.mpr ⟨l, List.getElem?_mem hls, rfl⟩
          rw [hlid, ← h0] at hmem
          exact hnd.1 hmem
        simp [reserveFirst, h0, hls, hlid]
    · cases i with
      | zero =>
        have hl0 : l0 = l := by simpa using hl
        subst hl0
        simp [reserveFirst, h0]
      | succ i =>
        have hls : ls[i]? = some l := by simpa using hl
        simp only [reserveFirst, if_neg h0, List.getElem?_cons_succ]
        exact ih hnd.2 i hls

theorem mirrorSelect_snd_length (pkt : Nat) (links : List LinkState) :
    (mirrorSelect pkt links).2.length = links.length := by
  induction links with
  | nil => rfl
  | cons l ls ih =>
    by_cases h : eligB pkt l <;> simp [mirrorSelect, h, ih]

theorem mirrorSelect_snd_getElem (pkt : Nat) (links : List LinkState) (i : Nat)
    (l : LinkState) (hl : links[i]? = some l) :
    (mirrorSelect pkt links).2[i]?
      = some (if eligB pkt l then { l with tokens := l.tokens - pkt } else l) := by
  induction links generalizing i with
  | nil => simp at hl
  | cons l0 ls ih =>
    cases i with
    | zero =>
      have hl0 : l0 = l := by simpa using hl
      subst hl0
      by_cases h : eligB pkt l0 <;> simp [mirrorSelect, h]
    | succ i =>
      have hls : ls[i]? = some l := by simpa using hl
      by_cases h : eligB pkt l0 <;> simp [mirrorSelect, h, ih i hls]

theorem eligB_tokens (pkt : Nat) (l : LinkState) (h : eligB pkt l = true) :
    pkt ≤ l.tokens := by
  rw [eligB, Bool.and_eq_true] at h
  exact of_decide_eq_true h.2

theorem mirror_frame (pkt : Nat) (links : List LinkState)
    (h : (links.map (fun l => l.id)).Nodup) :
    TokenReservation pkt links (mirrorSelect pkt links).2 (mirrorSelect pkt links).1 := by
  refine ⟨mirrorSelect_snd_length pkt links, ?_⟩
  intro i l hl
  constructor
  · intro hmem
    rw [mirrorSelect_fst] at hmem
    obtain ⟨l', hl', hid⟩ := List.mem_map.mp hmem
    have hlel : l' = l :=
      List.inj_on_of_nodup_map h (List.mem_of_mem_filter hl') (List.getElem?_mem hl) hid
    have helig : eligB pkt l = true := by
      rw [← hlel]
      exact List.of_mem_filter hl'
    rw [mirrorSelect_snd_getElem pkt links i l hl, if_pos helig]
    exact ⟨rfl, eligB_tokens pkt l helig⟩
  · intro hnmem
    have helig : eligB pkt l = false := by
      by_contra hne
      have helig : eligB pkt l = true := by simpa using hne
      have : l.id ∈ (mirrorSelect pkt links).1 := by
        rw [mirrorSelect_fst]
        exact List.mem_map.mpr ⟨l,
          List.mem_filter.mpr ⟨List.getElem?_mem hl, helig⟩, rfl⟩
      exact hnmem this
    rw [mirrorSelect_snd_getElem pkt links i l hl, if_neg (by simp [helig])]

theorem wrr_frame (entries0 : List WeightedEntry) (pkt : Nat) (links : List LinkState)
    (h : (links.map (fun l => l.id)).Nodup) :
    TokenReservation pkt links (wrrSelect entries0 pkt links).2.2
      (wrrSelect entries0 pkt links).1 := by
  obtain ⟨hempty, hwin⟩ := wrrSelect_spec entries0 pkt links
  by_cases hex : ∃ e ∈ wrrRebuild entries0 links, wrrElig links pkt e = true
  · obtain ⟨e, he, helig⟩ := hex
    obtain ⟨n, hn⟩ := List.get_of_mem he
    have hn' : (wrrRebuild entries0 links)[n.1]? = some e := by
      rw [List.getElem?_eq_getElem n.2]
      exact congrArg some (by simpa using hn)
    obtain ⟨k, ek, hupdk, heligk, _, _, hres, _, hlinks⟩ := hwin n.1 e hn' helig
    obtain ⟨flink, hfind, hfup, hftok, _⟩ := (wrrElig_iff links pkt ek).mp heligk
    have hfid : flink.id = ek.id := by simpa using List.find?_some hfind
    have hfmem : flink ∈ links := List.mem_of_find?_eq_some hfind
    refine ⟨by rw [hlinks]; exact reserveFirst_length links ek.id pkt, ?_⟩
    intro i l hl
    constructor
    · intro hmem
      rw [hres, List.mem_singleton] at hmem
      have hleq : l = flink :=
        List.inj_on_of_nodup_map h (List.getElem?_mem hl) hfmem (by rw [hmem, hfid])
      rw [hlinks, reserveFirst_getElem links ek.id pkt h i l hl, if_pos hmem]
      refine ⟨rfl, ?_⟩
      rw [hleq]
      exact hftok
    · intro hnmem
      rw [hres] at hnmem
      have hnid : l.id ≠ ek.id := by
        intro hid
        exact hnmem (by rw [hid]; exact List.mem_singleton_self _)
      rw [hlinks, reserveFirst_getElem links ek.id pkt h i l hl, if_neg hnid]
  · have hall : ∀ e ∈ wrrRebuild entries0 links, wrrElig links pkt e = false := by
      intro e he
      by_contra hne
      exact hex ⟨e, he, by simpa using hne⟩
    have hout := hempty hall
    rw [hout]
    exact ⟨rfl, fun i l hl => ⟨fun hm => absurd hm (List.not_mem_nil _), fun _ => hl⟩⟩

theorem eligibleLinksGo_sound (cfg : Replica2Cfg) (pkt : Nat) (ls : List LinkState) :
    ∀ (i : Nat) (c : Candidate), c ∈ (eligibleLinksGo cfg pkt i ls).1 →
      i ≤ c.index ∧ ∃ l, ls[c.index - i]? = some l ∧ l.up = true ∧ pkt ≤ l.tokens ∧
        c.id = l.id ∧ c.eta = computeEta cfg l := by
  induction ls with
  | nil =>
    intro i c hc
    simp [eligibleLinksGo] at hc
  | cons l0 ls ih =>
    intro i c hc
    have hlift : c ∈ (eligibleLinksGo cfg pkt (i + 1) ls).1 →
        i ≤ c.index ∧ ∃ l, (l0 :: ls)[c.index - i]? = some l ∧ l.up = true ∧
          pkt ≤ l.tokens ∧ c.id = l.id ∧ c.eta = computeEta cfg l := by
      intro hc'
      obtain ⟨hle, l, hl, hrest⟩ := ih (i + 1) c hc'
      refine ⟨by omega, l, ?_, hrest⟩
      have hidx : c.index - i = (c.index - (i + 1)) + 1 := by omega
      rw [hidx, List.getElem?_cons_succ]
      exact hl
    by_cases hup : l0.up = false
    · simp only [eligibleLinksGo, if_pos hup] at hc
      exact hlift hc
    · by_cases htok : l0.tokens < pkt
      · simp only [eligibleLinksGo, if_neg hup, if_pos htok] at hc
        exact hlift hc
      · simp only [eligibleLinksGo, if_neg hup, if_neg htok, List.mem_cons] at hc
        rcases hc with rfl | hc
        · refine ⟨le_refl i, l0, ?_, ?_, not_lt.mp htok, rfl, rfl⟩
          · simp
          · revert hup
            cases l0.up <;> simp
        · exact hlift hc

theorem eligibleLinksGo_pairwise (cfg : Replica2Cfg) (pkt : Nat) (ls : List LinkState) :
    ∀ i : Nat, ((eligibleLinksGo cfg pkt i ls).1).Pairwise (fun a b => a.index < b.index) := by
  induction ls with
  | nil =>
    intro i
    simp [eligibleLinksGo]
  | cons l0 ls ih =>
    intro i
    by_cases hup : l0.up = false
    · simp only [eligibleLinksGo, if_pos hup]
      exact ih (i + 1)
    · by_cases htok : l0.tokens < pkt
      · simp only [eligibleLinksGo, if_neg hup, if_pos htok]
        exact ih (i + 1)
      · simp only [eligibleLinksGo, if_neg hup, if_neg htok]
        rw [List.pairwise_cons]
        refine ⟨?_, ih (i + 1)⟩
        intro c hc
        have := (eligibleLinksGo_sound cfg pkt ls (i + 1) c hc).1
        simpa using by omega

theorem eligibleLinksGo_length (cfg : Replica2Cfg) (pkt : Nat) (ls : List LinkState) :
    ∀ i : Nat, (eligibleLinksGo cfg pkt i ls).1.length = (ls.filter (eligB pkt)).length := by
  induction ls with
  | nil =>
    intro i
    rfl
  | cons l0 ls ih =>
    intro i
    by_cases hup : l0.up = false
    · have helig : eligB pkt l0 = false := by
        rw [eligB, hup]
        rfl
      simp only [eligibleLinksGo, if_pos hup, List.filter_cons, helig]
      simpa using ih (i + 1)
    · have hup' : l0.up = true := by
        revert hup
        cases l0.up <;> simp
      by_cases htok : l0.tokens < pkt
      · have helig : eligB pkt l0 = false := by
          rw [eligB, hup']
          simpa using htok
        simp only [eligibleLinksGo, if_neg hup, if_pos htok, List.filter_cons, helig]
        simpa using ih (i + 1)
      · have helig : eligB pkt l0 = true := by
          rw [eligB, hup']
          simpa using not_lt.mp htok
        simp only [eligibleLinksGo, if_neg hup, if_neg htok, List.filter_cons, helig]
        simpa using ih (i + 1)

theorem foldl_reserveAt_length (pkt : Nat) (cs : List Candidate) :
    ∀ links : List LinkState,
      (cs.foldl (fun ls c => reserveAt ls c.index pkt) links).length = links.length := by
  induction cs with
  | nil =>
    intro links
    rfl
  | cons c cs ih =>
    intro links
    rw [List.foldl_cons, ih (reserveAt links c.index pkt), reserveAt_length]

theorem foldl_reserveAt_getElem (pkt : Nat) (cs : List Candidate) :
    ∀ links : List LinkState, cs.Pairwise (fun a b => a.index ≠ b.index) → ∀ i : Nat,
      (cs.foldl (fun ls c => reserveAt ls c.index pkt) links)[i]?
        = if ∃ c ∈ cs, c.index = i then
            (links[i]?).map (fun l => { l with tokens := l.tokens - pkt })
          else links[i]? := by
  induction cs with
  | nil =>
    intro links _ i
    simp
  | cons c cs ih =>
    intro links hp i
    obtain ⟨hhead, htail⟩ := List.pairwise_cons.mp hp
    rw [List.foldl_cons, ih (reserveAt links c.index pkt) htail i]
    by_cases hci : c.index = i
    · have hnone : ¬ ∃ c' ∈ cs, c'.index = i := by
        rintro ⟨c', hc', hc'i⟩
        exact hhead c' hc' (by rw [hci, hc'i])
      rw [if_neg hnone, reserveAt_getElem, if_pos hci, hci,
        if_pos ⟨c, List.mem_cons_self c cs, hci⟩]
    · by_cases hex : ∃ c' ∈ cs, c'.index = i
      · obtain ⟨c', hc', hc'i⟩ := hex
        rw [if_pos ⟨c', hc', hc'i⟩, if_pos ⟨c', List.mem_cons_of_mem c hc', hc'i⟩,
          reserveAt_getElem, if_neg hci]
      · have hnone : ¬ ∃ c' ∈ c :: cs, c'.index = i := by
          rintro ⟨c', hc', hc'i⟩
          rcases List.mem_cons.mp hc' with rfl | hc'
          · exact hci hc'i
          · exact hex ⟨c', hc', hc'i⟩
        rw [if_neg hex, if_neg hnone, reserveAt_getElem, if_neg hci]

theorem cands_frame (pkt : Nat) (links : List LinkState)
    (h : (links.map (fun l => l.id)).Nodup) (cs : List Candidate)
    (hvalid : ∀ c ∈ cs, ∃ l, links[c.index]? = some l ∧ l.up = true ∧
      pkt ≤ l.tokens ∧ c.id = l.id)
    (hpw : cs.Pairwise (fun a b => a.index ≠ b.index)) :
    TokenReservation pkt links (cs.foldl (fun ls c => reserveAt ls c.index pkt) links)
      (cs.map (fun c => c.id)) := by
  refine ⟨foldl_reserveAt_length pkt cs links, ?_⟩
  intro i l hl
  constructor
  · intro hmem
    obtain ⟨c, hc, hcid⟩ := List.mem_map.mp hmem
    obtain ⟨l', hl', hup, htok, hid⟩ := hvalid c hc
    have hll : l' = l :=
      List.inj_on_of_nodup_map h (List.getElem?_mem hl') (List.getElem?_mem hl)
        (by rw [← hid, hcid])
    have hidx : c.index = i :=
      nodup_ids_index links h c.index i l' l hl' hl (by rw [hll])
    rw [foldl_reserveAt_getElem pkt cs links hpw i, if_pos ⟨c, hc, hidx⟩, hl]
    refine ⟨rfl, ?_⟩
    rw [← hll]
    exact htok
  · intro hnmem
    rw [foldl_reserveAt_getElem pkt cs links hpw i, if_neg ?_]
    · exact hl
    · rintro ⟨c, hc, hcidx⟩
      obtain ⟨l', hl', hup, htok, hid⟩ := hvalid c hc
      rw [hcidx, hl] at hl'
      have : c.id = l.id := by rw [hid, Option.some.inj hl']
      exact hnmem (List.mem_map.mpr ⟨c, hc, this⟩)

theorem selectPaths_frame (s : SchedImpl) (pkt : Nat) (links : List LinkState)
    (h : (links.map (fun l => l.id)).Nodup) :
    TokenReservation pkt links (selectPaths s pkt links).2.2 (selectPaths s pkt links).1 := by
  induction s with
  | mirror => exact mirror_frame pkt links h
  | wrr es => exact wrr_frame es pkt links h
  | replica2 minL cfg fb mets ih =>
    by_cases hless : (links.filter (fun l => l.up)).length < max minL 3
    · have h1 : (selectPaths (.replica2 minL cfg fb mets) pkt links).1
          = (selectPaths fb pkt links).1 := by
        simp only [selectPaths, if_pos hless]
      have h2 : (selectPaths (.replica2 minL cfg fb mets) pkt links).2.2
          = (selectPaths fb pkt links).2.2 := by
        simp only [selectPaths, if_pos hless]
      rw [h1, h2]
      exact ih
    · rcases hel : (eligibleLinks cfg pkt links).1 with _ | ⟨c1, rest⟩
      · have h1 : (selectPaths (.replica2 minL cfg fb mets) pkt links).1
            = (selectPaths fb pkt links).1 := by
          simp only [selectPaths, if_neg hless, hel]
        have h2 : (selectPaths (.replica2 minL cfg fb mets) pkt links).2.2
            = (selectPaths fb pkt links).2.2 := by
          simp only [selectPaths, if_neg hless, hel]
        rw [h1, h2]
        exact ih
      · rcases rest with _ | ⟨c2, rest2⟩
        · have h1 : (selectPaths (.replica2 minL cfg fb mets) pkt links).1 = [c1.id] := by
            simp only [selectPaths, if_neg hless, hel]
          have h2 : (selectPaths (.replica2 minL cfg fb mets) pkt links).2.2
              = reserveAt links c1.index pkt := by
            simp only [selectPaths, if_neg hless, hel]
          rw [h1, h2]
          have hc1 : c1 ∈ (eligibleLinksGo cfg pkt 0 links).1 := by
            have hel' : (eligibleLinksGo cfg pkt 0 links).1 = [c1] := hel
            rw [hel']
            exact List.mem_singleton_self c1
          obtain ⟨_, l, hl, hup, htok, hid, _⟩ :=
            eligibleLinksGo_sound cfg pkt links 0 c1 hc1
          have hframe := cands_frame pkt links h [c1]
            (by
              intro c hc
              rw [List.mem_singleton] at hc
              subst hc
              exact ⟨l, by simpa using hl, hup, htok, hid⟩)
            (List.pairwise_singleton _ c1)
          simpa using hframe
        · have h1 : (selectPaths (.replica2 minL cfg fb mets) pkt links).1
              = (((c1 :: c2 :: rest2).mergeSort candLE).take 2).map (fun c => c.id) := by
            simp only [selectPaths, if_neg hless, hel]
          have h2 : (selectPaths (.replica2 minL cfg fb mets) pkt links).2.2
              = (((c1 :: c2 :: rest2).mergeSort candLE).take 2).foldl
                  (fun ls c => reserveAt ls c.index pkt) links := by
            simp only [selectPaths, if_neg hless, hel]
          rw [h1, h2]
          have hel' : (eligibleLinksGo cfg pkt 0 links).1 = c1 :: c2 :: rest2 := hel
          have hperm := List.mergeSort_perm (c1 :: c2 :: rest2) candLE
          have htakemem : ∀ c ∈ ((c1 :: c2 :: rest2).mergeSort candLE).take 2,
              c ∈ (eligibleLinksGo cfg pkt 0 links).1 := by
            intro c hc
            rw [hel']
            exact hperm.mem_iff.mp ((List.take_sublist 2 _).subset hc)
          apply cands_frame pkt links h
          · intro c hc
            obtain ⟨_, l, hl, hup, htok, hid, _⟩ :=
              eligibleLinksGo_sound cfg pkt links 0 c (htakemem c hc)
            exact ⟨l, by simpa using hl, hup, htok, hid⟩
          · have hpw : (c1 :: c2 :: rest2).Pairwise (fun a b => a.index < b.index) := by
              have := eligibleLinksGo_pairwise cfg pkt links 0
              rwa [hel'] at this
            have hnd : ((c1 :: c2 :: rest2).map (fun c => c.index)).Nodup :=
              List.pairwise_map.mpr (hpw.imp (fun hab => ne_of_lt hab))
            have hndsorted : (((c1 :: c2 :: rest2).mergeSort candLE).map
                (fun c => c.index)).Nodup :=
              ((hperm.map (fun c => c.index)).symm).nodup hnd
            have hndtake : ((((c1 :: c2 :: rest2).mergeSort candLE).take 2).map
                (fun c => c.index)).Nodup :=
              ((List.take_sublist 2 ((c1 :: c2 :: rest2).mergeSort candLE)).map
                (fun c : Candidate => c.index)).nodup hndsorted
            exact List.pairwise_map.mp hndtake

/-- C2 (amended): for every scheduler variant, every packet length and
every slice of link states with pairwise-distinct path ids, after
`select_paths` each link whose id was returned lost exactly `pkt_len`
tokens (having had at least `pkt_len`) and changed in no other field, and
every other link is unchanged. -/
theorem select_paths_token_reservation (s : SchedImpl) (pkt : Nat) (links : List LinkState)
    (h : (links.map (fun l => l.id)).Nodup) :
    TokenReservation pkt links (selectPaths s pkt links).2.2 (selectPaths s pkt links).1 :=
  selectPaths_frame s pkt links h

theorem wrrSelect_length_le_one (entries0 : List WeightedEntry) (pkt : Nat)
    (links : List LinkState) : (wrrSelect entries0 pkt links).1.length ≤ 1 := by
  simp only [wrrSelect]
  rcases hbf : (wrrLoop links pkt (wrrRebuild entries0 links) 0 none).2 with _ | ⟨idx, v⟩
  · simp
  · dsimp only
    split_ifs with htot
    · simp
    · rcases hke : (wrrLoop links pkt (wrrRebuild entries0 links) 0 none).1[idx]?
        with _ | e
      · simp
      · simp

theorem wrrSelect_no_eligible (entries0 : List WeightedEntry) (pkt : Nat)
    (links : List LinkState) (hno : ∀ l ∈ links, eligB pkt l = false) :
    (wrrSelect entries0 pkt links).1 = [] := by
  have hall : ∀ e ∈ wrrRebuild entries0 links, wrrElig links pkt e = false := by
    intro e he
    by_contra hne
    have helig : wrrElig links pkt e = true := by simpa using hne
    obtain ⟨flink, hfind, hfup, hftok, _⟩ := (wrrElig_iff links pkt e).mp helig
    have hmem := List.mem_of_find?_eq_some hfind
    have hfl := hno flink hmem
    rw [eligB, hfup] at hfl
    simp [hftok] at hfl
  rw [(wrrSelect_spec entries0 pkt links).1 hall]

theorem replica2_counts (minL : Nat) (cfg : Replica2Cfg) (es : List WeightedEntry)
    (mets : SchedulerMetrics) (pkt : Nat) (links : List LinkState)
    (h : (links.map (fun l => l.id)).Nodup) :
    ReplicaSelectCounts minL pkt links
      (selectPaths (.replica2 minL cfg (.wrr es) mets) pkt links).1 := by
  constructor
  · intro hup
    have hnotless : ¬ (links.filter (fun l => l.up)).length < max minL 3 := not_lt.mpr hup
    rcases hel : (eligibleLinks cfg pkt links).1 with _ | ⟨c1, rest⟩
    · have hel' : (eligibleLinksGo cfg pkt 0 links).1 = [] := hel
      have hE : (links.filter (eligB pkt)).length = 0 := by
        rw [← eligibleLinksGo_length cfg pkt links 0, hel']
        rfl
      refine ⟨?_, ?_, ?_⟩
      · intro h2
        omega
      · intro h1
        omega
      · intro _
        have h1 : (selectPaths (.replica2 minL cfg (.wrr es) mets) pkt links).1
            = (selectPaths (.wrr es) pkt links).1 := by
          simp only [selectPaths, if_neg hnotless, hel]
        rw [h1]
        show (wrrSelect es pkt links).1 = []
        apply wrrSelect_no_eligible
        intro l hl
        by_contra hne
        have helig : eligB pkt l = true := by simpa using hne
        have : l ∈ links.filter (eligB pkt) := List.mem_filter.mpr ⟨hl, helig⟩
        rw [List.length_eq_zero.mp hE] at this
        cases this
    · rcases rest with _ | ⟨c2, rest2⟩
      · have hel' : (eligibleLinksGo cfg pkt 0 links).1 = [c1] := hel
        have hE : (links.filter (eligB pkt)).length = 1 := by
          rw [← eligibleLinksGo_length cfg pkt links 0, hel']
          rfl
        refine ⟨?_, ?_, ?_⟩
        · intro h2
          omega
        · intro _
          have h1 : (selectPaths (.replica2 minL cfg (.wrr es) mets) pkt links).1
              = [c1.id] := by
            simp only [selectPaths, if_neg hnotless, hel]
          rw [h1]
          rfl
        · intro h0
          omega
      · have hel' : (eligibleLinksGo cfg pkt 0 links).1 = c1 :: c2 :: rest2 := hel
        have hE : (links.filter (eligB pkt)).length = 2 + rest2.length := by
          rw [← eligibleLinksGo_length cfg pkt links 0, hel']
          simp
          omega
        have h1 : (selectPaths (.replica2 minL cfg (.wrr es) mets) pkt links).1
            = (((c1 :: c2 :: rest2).mergeSort candLE).take 2).map (fun c => c.id) := by
          simp only [selectPaths, if_neg hnotless, hel]
        refine ⟨?_, ?_, ?_⟩
        · intro _
          constructor
          · rw [h1, List.length_map, List.length_take, List.length_mergeSort]
            simp
          · rw [h1]
            have hperm := List.mergeSort_perm (c1 :: c2 :: rest2) candLE
            have hpw : (c1 :: c2 :: rest2).Pairwise (fun a b => a.index < b.index) := by
              have := eligibleLinksGo_pairwise cfg pkt links 0
              rwa [hel'] at this
            have hpwid : (c1 :: c2 :: rest2).Pairwise (fun a b => a.id ≠ b.id) := by
              refine hpw.imp_of_mem ?_
              intro a b ha hb hab hid
              have ha' : a ∈ (eligibleLinksGo cfg pkt 0 links).1 := by
                rw [hel']; exact ha
              have hb' : b ∈ (eligibleLinksGo cfg pkt 0 links).1 := by
                rw [hel']; exact hb
              obtain ⟨_, la, hla, _, _, haid, _⟩ :=
                eligibleLinksGo_sound cfg pkt links 0 a ha'
              obtain ⟨_, lb, hlb, _, _, hbid, _⟩ :=
                eligibleLinksGo_sound cfg pkt links 0 b hb'
              have : a.index = b.index := by
                have := nodup_ids_index links h (a.index - 0) (b.index - 0) la lb hla hlb
                  (by rw [← haid, ← hbid, hid])
                omega
              omega
            have hnd : ((c1 :: c2 :: rest2).map (fun c => c.id)).Nodup :=
              List.pairwise_map.mpr hpwid
            have hndsorted : (((c1 :: c2 :: rest2).mergeSort candLE).map
                (fun c => c.id)).Nodup :=
              ((hperm.map (fun c => c.id)).symm).nodup hnd
            exact ((List.take_sublist 2 ((c1 :: c2 :: rest2).mergeSort candLE)).map
              (fun c : Candidate => c.id)).nodup hndsorted
        · intro hone
          omega
        · intro h0
          omega
  · intro hless
    have h1 : (selectPaths (.replica2 minL cfg (.wrr es) mets) pkt links).1
        = (selectPaths (.wrr es) pkt links).1 := by
      simp only [selectPaths, if_pos hless]
    rw [h1]
    exact wrrSelect_length_le_one es pkt links

/-- C1 (amended): with pairwise-distinct path ids and the factory-shaped
scheduler (WRR fallback), once the number of up links reaches
`max(min_links_for_aggregation, 3)` the Replica2 scheduler returns exactly
two distinct ids when at least two eligible candidates exist, exactly one
when exactly one exists, and none exactly when none exists; with fewer up
links it delegates to the WRR fallback, which returns at most one id. -/
theorem replica2_select_counts (minL : Nat) (cfg : Replica2Cfg) (es : List WeightedEntry)
    (mets : SchedulerMetrics) (pkt : Nat) (links : List LinkState)
    (h : (links.map (fun l => l.id)).Nodup) :
    ReplicaSelectCounts minL pkt links
      (selectPaths (.replica2 minL cfg (.wrr es) mets) pkt links).1 :=
  replica2_counts minL cfg es mets pkt links h

/-- C1 witness at the specification's scenario-1 style input: three up
links with ample tokens. -/
theorem replica2_select_counts_witness :
    (([{ id := 1, up := true, weight := 1, smoothed_rtt := 1 / 100, loss := 0,
         send_bps := 1000000, inflight_bytes := 1000, tokens := 2000 },
       { id := 2, up := true, weight := 1, smoothed_rtt := 3 / 250, loss := 0,
         send_bps := 1000000, inflight_bytes := 1100, tokens := 2000 },
       { id := 3, up := true, weight := 1, smoothed_rtt := 3 / 100, loss := 0,
         send_bps := 1000000, inflight_bytes := 2000, tokens := 2000 }]
        : List LinkState).map (fun l => l.id)).Nodup ∧
    ReplicaSelectCounts 3 1200
      [{ id := 1, up := true, weight := 1, smoothed_rtt := 1 / 100, loss := 0,
         send_bps := 1000000, inflight_bytes := 1000, tokens := 2000 },
       { id := 2, up := true, weight := 1, smoothed_rtt := 3 / 250, loss := 0,
         send_bps := 1000000, inflight_bytes := 1100, tokens := 2000 },
       { id := 3, up := true, weight := 1, smoothed_rtt := 3 / 100, loss := 0,
         send_bps := 1000000, inflight_bytes := 2000, tokens := 2000 }]
      (selectPaths (.replica2 3 replica2CfgDefault (.wrr []) default) 1200
        [{ id := 1, up := true, weight := 1, smoothed_rtt := 1 / 100, loss := 0,
           send_bps := 1000000, inflight_bytes := 1000, tokens := 2000 },
         { id := 2, up := true, weight := 1, smoothed_rtt := 3 / 250, loss := 0,
           send_bps := 1000000, inflight_bytes := 1100, tokens := 2000 },
         { id := 3, up := true, weight := 1, smoothed_rtt := 3 / 100, loss := 0,
           send_bps := 1000000, inflight_bytes := 2000, tokens := 2000 }]).1 :=
  ⟨by simp, replica2_select_counts 3 replica2CfgDefault [] default 1200 _ (by simp)⟩

/-- C1 counterexample: three up links, only two of which have enough
tokens.  The claim predicts a single id ("exactly one otherwise"); the
code returns two, as the repository's own test
`replica2_skips_links_without_tokens` also expects. -/
theorem replica2_count_counterexample :
    (([{ id := 1, up := true, weight := 1, smoothed_rtt := 0, loss := 0,
         send_bps := 0, inflight_bytes := 0, tokens := 2000 },
       { id := 2, up := true, weight := 1, smoothed_rtt := 0, loss := 0,
         send_bps := 0, inflight_bytes := 0, tokens := 500 },
       { id := 3, up := true, weight := 1, smoothed_rtt := 0, loss := 0,
         send_bps := 0, inflight_bytes := 0, tokens := 2000 }]
        : List LinkState).filter (eligB 1200)).length = 2 ∧
    (selectPaths (.replica2 3 replica2CfgDefault (.wrr []) default) 1200
      [{ id := 1, up := true, weight := 1, smoothed_rtt := 0, loss := 0,
         send_bps := 0, inflight_bytes := 0, tokens := 2000 },
       { id := 2, up := true, weight := 1, smoothed_rtt := 0, loss := 0,
         send_bps := 0, inflight_bytes := 0, tokens := 500 },
       { id := 3, up := true, weight := 1, smoothed_rtt := 0, loss := 0,
         send_bps := 0, inflight_bytes := 0, tokens := 2000 }]).1 = [1, 3] := by
  constructor
  · simp [eligB]
  · simp [selectPaths, eligibleLinks, eligibleLinksGo, computeEta, replica2CfgDefault,
      candLE, List.mergeSort, reserveAt, eligB]

/-- C2 witness: a single up link selected by the mirror scheduler loses
exactly the packet length. -/
theorem select_paths_token_reservation_witness :
    (([{ id := 1, up := true, weight := 1, smoothed_rtt := 0, loss := 0,
         send_bps := 0, inflight_bytes := 0, tokens := 100 }]
        : List LinkState).map (fun l => l.id)).Nodup ∧
    TokenReservation 10
      [{ id := 1, up := true, weight := 1, smoothed_rtt := 0, loss := 0,
         send_bps := 0, inflight_bytes := 0, tokens := 100 }]
      (selectPaths .mirror 10
        [{ id := 1, up := true, weight := 1, smoothed_rtt := 0, loss := 0,
           send_bps := 0, inflight_bytes := 0, tokens := 100 }]).2.2
      (selectPaths .mirror 10
        [{ id := 1, up := true, weight := 1, smoothed_rtt := 0, loss := 0,
           send_bps := 0, inflight_bytes := 0, tokens := 100 }]).1 :=
  ⟨by simp, select_paths_token_reservation .mirror 10 _ (by simp)⟩

/-- C2 counterexample: on a slice with two links sharing path id 1 the WRR
scheduler returns id 1 but decrements only the first of the two links; the
second keeps all its tokens, so the per-link token-reservation property
fails on unrestricted slices. -/
theorem select_paths_duplicate_id_counterexample :
    (selectPaths (.wrr []) 10
      [{ id := 1, up := true, weight := 1, smoothed_rtt := 0, loss := 0,
         send_bps := 0, inflight_bytes := 0, tokens := 100 },
       { id := 1, up := true, weight := 1, smoothed_rtt := 0, loss := 0,
         send_bps := 0, inflight_bytes := 0, tokens := 100 }]).1 = [1] ∧
    (selectPaths (.wrr []) 10
      [{ id := 1, up := true, weight := 1, smoothed_rtt := 0, loss := 0,
         send_bps := 0, inflight_bytes := 0, tokens := 100 },
       { id := 1, up := true, weight := 1, smoothed_rtt := 0, loss := 0,
         send_bps := 0, inflight_bytes := 0, tokens := 100 }]).2.2 =
      [{ id := 1, up := true, weight := 1, smoothed_rtt := 0, loss := 0,
         send_bps := 0, inflight_bytes := 0, tokens := 90 },
       { id := 1, up := true, weight := 1, smoothed_rtt := 0, loss := 0,
         send_bps := 0, inflight_bytes := 0, tokens := 100 }] ∧
    ¬ TokenReservation 10
      [{ id := 1, up := true, weight := 1, smoothed_rtt := 0, loss := 0,
         send_bps := 0, inflight_bytes := 0, tokens := 100 },
       { id := 1, up := true, weight := 1, smoothed_rtt := 0, loss := 0,
         send_bps := 0, inflight_bytes := 0, tokens := 100 }]
      (selectPaths (.wrr []) 10
        [{ id := 1, up := true, weight := 1, smoothed_rtt := 0, loss := 0,
           send_bps := 0, inflight_bytes := 0, tokens := 100 },
         { id := 1, up := true, weight := 1, smoothed_rtt := 0, loss := 0,
           send_bps := 0, inflight_bytes := 0, tokens := 100 }]).2.2
      (selectPaths (.wrr []) 10
        [{ id := 1, up := true, weight := 1, smoothed_rtt := 0, loss := 0,
           send_bps := 0, inflight_bytes := 0, tokens := 100 },
         { id := 1, up := true, weight := 1, smoothed_rtt := 0, loss := 0,
           send_bps := 0, inflight_bytes := 0, tokens := 100 }]).1 := by
  have h1 : (selectPaths (.wrr []) 10
      [{ id := 1, up := true, weight := 1, smoothed_rtt := 0, loss := 0,
         send_bps := 0, inflight_bytes := 0, tokens := 100 },
       { id := 1, up := true, weight := 1, smoothed_rtt := 0, loss := 0,
         send_bps := 0, inflight_bytes := 0, tokens := 100 }]).1 = [1] := by
    simp [selectPaths, wrrSelect, wrrRebuild, wrrRebuildGo, wrrLoop, wrrElig,
      wrrTotal, wrrEps, reserveFirst, List.find?]
    norm_num
  have h2 : (selectPaths (.wrr []) 10
      [{ id := 1, up := true, weight := 1, smoothed_rtt := 0, loss := 0,
         send_bps := 0, inflight_bytes := 0, tokens := 100 },
       { id := 1, up := true, weight := 1, smoothed_rtt := 0, loss := 0,
         send_bps := 0, inflight_bytes := 0, tokens := 100 }]).2.2 =
      [{ id := 1, up := true, weight := 1, smoothed_rtt := 0, loss := 0,
         send_bps := 0, inflight_bytes := 0, tokens := 90 },
       { id := 1, up := true, weight := 1, smoothed_rtt := 0, loss := 0,
         send_bps := 0, inflight_bytes := 0, tokens := 100 }] := by
    simp [selectPaths, wrrSelect, wrrRebuild, wrrRebuildGo, wrrLoop, wrrElig,
      wrrTotal, wrrEps, reserveFirst, List.find?]
    norm_num
  refine ⟨h1, h2, ?_⟩
  rintro ⟨-, hfr⟩
  have hx := (hfr 1
    { id := 1, up := true, weight := 1, smoothed_rtt := 0, loss := 0,
      send_bps := 0, inflight_bytes := 0, tokens := 100 } (by simp)).1
    (by rw [h1]; simp)
  rw [h2] at hx
  simp at hx

/-- C5 (amended): a WRR `select_paths` call rebuilds the entry list, adds
its weight to the `current_weight` of each eligible entry, and — when any
entry is eligible — returns only the id of an eligible entry with maximal
updated `current_weight`, ties going to the earliest entry in rebuilt
order (the first matching up link in the slice, not the lowest path id),
subtracting the total eligible weight from the winner's accumulator and
reserving tokens on the winner's link. -/
theorem wrr_select_paths_amended (entries0 : List WeightedEntry) (pkt : Nat)
    (links : List LinkState) :
    WrrStepSpec entries0 pkt links (wrrSelect entries0 pkt links) :=
  wrrSelect_spec entries0 pkt links

/-- C5 witness at a concrete one-link slice. -/
theorem wrr_select_paths_amended_witness :
    WrrStepSpec [] 10
      [{ id := 1, up := true, weight := 1, smoothed_rtt := 0, loss := 0,
         send_bps := 0, inflight_bytes := 0, tokens := 100 }]
      (wrrSelect [] 10
        [{ id := 1, up := true, weight := 1, smoothed_rtt := 0, loss := 0,
           send_bps := 0, inflight_bytes := 0, tokens := 100 }]) :=
  wrr_select_paths_amended [] 10 _

/-- C5 counterexample: two equal-weight up links listed in the order
id 2, id 1.  Both updated accumulators tie, and the scheduler returns
id 2 — the earlier entry in slice order — not the lower path id 1. -/
theorem wrr_tie_break_counterexample :
    (wrrSelect [] 10
      [{ id := 2, up := true, weight := 1, smoothed_rtt := 0, loss := 0,
         send_bps := 0, inflight_bytes := 0, tokens := 100 },
       { id := 1, up := true, weight := 1, smoothed_rtt := 0, loss := 0,
         send_bps := 0, inflight_bytes := 0, tokens := 100 }]).1 = [2] ∧
    (wrrSelect [] 10
      [{ id := 2, up := true, weight := 1, smoothed_rtt := 0, loss := 0,
         send_bps := 0, inflight_bytes := 0, tokens := 100 },
       { id := 1, up := true, weight := 1, smoothed_rtt := 0, loss := 0,
         send_bps := 0, inflight_bytes := 0, tokens := 100 }]).1 ≠ [1] := by
  have h1 : (wrrSelect [] 10
      [{ id := 2, up := true, weight := 1, smoothed_rtt := 0, loss := 0,
         send_bps := 0, inflight_bytes := 0, tokens := 100 },
       { id := 1, up := true, weight := 1, smoothed_rtt := 0, loss := 0,
         send_bps := 0, inflight_bytes := 0, tokens := 100 }]).1 = [2] := by
    simp [wrrSelect, wrrRebuild, wrrRebuildGo, wrrLoop, wrrElig, wrrTotal,
      wrrEps, reserveFirst, List.find?]
    norm_num
  refine ⟨h1, ?_⟩
  rw [h1]
  simp

theorem rotLoop_eq (ss : List WServer) (idx : Nat) (best : Option (Nat × ℚ)) :
    rotLoop ss idx best = (rotUpd ss, bestFold (rotVals ss) idx best) := by
  induction ss generalizing idx best with
  | nil => rfl
  | cons s ss ih =>
    simp only [rotLoop, ih, rotUpd, rotVals, List.map_cons]
    rfl

theorem rotUpd_map_name (ss : List WServer) :
    (rotUpd ss).map (fun s => s.name) = ss.map (fun s => s.name) := by
  rw [rotUpd, List.map_map]
  rfl

theorem rotUpd_map_weight (ss : List WServer) :
    (rotUpd ss).map (fun s => s.weight) = ss.map (fun s => s.weight) := by
  rw [rotUpd, List.map_map]
  rfl

theorem rotUpd_length (ss : List WServer) : (rotUpd ss).length = ss.length := by
  simp [rotUpd]

theorem rotUpd_getElem (ss : List WServer) (q : Nat) (s : WServer) (h : ss[q]? = some s) :
    (rotUpd ss)[q]? = some { s with current_weight := s.current_weight + s.weight } := by
  simp [rotUpd, List.getElem?_map, h]

theorem rotUpd_cw_sum (ss : List WServer) :
    ((rotUpd ss).map (fun s => s.current_weight)).sum
      = (ss.map (fun s => s.current_weight)).sum + (ss.map (fun s => s.weight)).sum := by
  induction ss with
  | nil => simp [rotUpd]
  | cons s ss ih =>
    simp only [rotUpd, List.map_cons, List.sum_cons] at ih ⊢
    rw [ih]
    ring

theorem set_map_name (l : List WServer) (i : Nat) (s : WServer) (x : ℚ)
    (h : l[i]? = some s) :
    (l.set i { s with current_weight := x }).map (fun t => t.name)
      = l.map (fun t => t.name) := by
  induction l generalizing i with
  | nil => simp at h
  | cons a as ih =>
    cases i with
    | zero =>
      have ha : a = s := by simpa using h
      subst ha
      simp
    | succ i =>
      have has : as[i]? = some s := by simpa using h
      simp [ih i has]

theorem set_map_weight (l : List WServer) (i : Nat) (s : WServer) (x : ℚ)
    (h : l[i]? = some s) :
    (l.set i { s with current_weight := x }).map (fun t => t.weight)
      = l.map (fun t => t.weight) := by
  induction l generalizing i with
  | nil => simp at h
  | cons a as ih =>
    cases i with
    | zero =>
      have ha : a = s := by simpa using h
      subst ha
      simp
    | succ i =>
      have has : as[i]? = some s := by simpa using h
      simp [ih i has]

theorem set_cw_sum (l : List WServer) (i : Nat) (s : WServer) (x : ℚ)
    (h : l[i]? = some s) :
    ((l.set i { s with current_weight := x }).map (fun t => t.current_weight)).sum
      = (l.map (fun t => t.current_weight)).sum - s.current_weight + x := by
  induction l generalizing i with
  | nil => simp at h
  | cons a as ih =>
    cases i with
    | zero =>
      have ha : a = s := by simpa using h
      subst ha
      simp
      ring
    | succ i =>
      have has : as[i]? = some s := by simpa using h
      simp only [List.set_cons_succ, List.map_cons, List.sum_cons, ih i has]
      ring

theorem sum_split_at (l : List ℚ) (q : Nat) (x : ℚ) (h : l[q]? = some x) :
    ∃ l' : List ℚ, l'.length + 1 = l.length ∧ (∀ y ∈ l', y ∈ l) ∧ l.sum = x + l'.sum := by
  induction l generalizing q with
  | nil => simp at h
  | cons a as ih =>
    cases q with
    | zero =>
      have ha : a = x := by simpa using h
      refine ⟨as, by simp, fun y hy => List.mem_cons_of_mem a hy, ?_⟩
      rw [List.sum_cons, ha]
    | succ q =>
      have has : as[q]? = some x := by simpa using h
      obtain ⟨l', hlen, hmem, hsum⟩ := ih q has
      refine ⟨a :: l', by simp [← hlen], ?_, ?_⟩
      · intro y hy
        rcases List.mem_cons.mp hy with heq | hy2
        · rw [heq]
          exact List.mem_cons_self _ _
        · exact List.mem_cons_of_mem _ (hmem y hy2)
      · simp only [List.sum_cons, hsum]
        ring

theorem rotInv_total_pos (st : WrrRotState) (h : RotInv st) : 0 < st.total_weight := by
  obtain ⟨hne, hw, htot, _, _, _⟩ := h
  rw [htot]
  apply List.sum_pos
  · intro x hx
    obtain ⟨s, hs, rfl⟩ := List.mem_map.mp hx
    exact hw s hs
  · intro hmap
    exact hne (List.map_eq_nil_iff.mp hmap)

theorem nextInterface_step (st : WrrRotState) (hinv : RotInv st) :
    ∃ (k : Nat) (s : WServer),
      (rotUpd st.servers)[k]? = some s ∧
      (∀ (j : Nat) (t : WServer), (rotUpd st.servers)[j]? = some t →
        t.current_weight ≤ s.current_weight) ∧
      (nextInterface st).1 = some s.name ∧
      (nextInterface st).2.servers
        = (rotUpd st.servers).set k
            { s with current_weight := s.current_weight - st.total_weight } ∧
      (nextInterface st).2.total_weight = st.total_weight := by
  have htotpos : 0 < st.total_weight := rotInv_total_pos st hinv
  obtain ⟨hne, hw, htot, hsum, hlb, hnames⟩ := hinv
  have hguard : (st.servers.isEmpty || decide (st.total_weight ≤ 0)) = false := by
    have h1 : st.servers.isEmpty = false := by
      rcases hs : st.servers with _ | ⟨a, as⟩
      · exact absurd hs hne
      · rfl
    simp [h1, not_le.mpr htotpos]
  obtain ⟨s0, hs0⟩ : ∃ s0, st.servers[0]? = some s0 := by
    rcases hs : st.servers with _ | ⟨a, as⟩
    · exact absurd hs hne
    · exact ⟨a, by simp⟩
  have hv0 : (rotVals st.servers)[0]? = some (some (s0.current_weight + s0.weight)) := by
    simp [rotVals, List.getElem?_map, hs0]
  rcases hbf : bestFold (rotVals st.servers) 0 none with _ | ⟨k, v⟩
  · exfalso
    have hall := (bestFold_none_iff _ 0).mp hbf
    cases hall _ (List.getElem?_mem hv0)
  obtain ⟨hk, hmax, _⟩ := bestFold_some_spec _ _ _ hbf
  rw [rotVals, List.getElem?_map] at hk
  rcases hks : st.servers[k]? with _ | sk
  · rw [hks] at hk
    cases hk
  rw [hks] at hk
  simp only [Option.map_some'] at hk
  have hveq : sk.current_weight + sk.weight = v :=
    Option.some.inj (Option.some.inj hk)
  have hupdk : (rotUpd st.servers)[k]?
      = some { sk with current_weight := sk.current_weight + sk.weight } :=
    rotUpd_getElem st.servers k sk hks
  have hmax' : ∀ (j : Nat) (t : WServer), (rotUpd st.servers)[j]? = some t →
      t.current_weight ≤ sk.current_weight + sk.weight := by
    intro j t ht
    rw [rotUpd, List.getElem?_map] at ht
    rcases hjs : st.servers[j]? with _ | tj
    · rw [hjs] at ht
      cases ht
    rw [hjs] at ht
    simp only [Option.map_some'] at ht
    have hteq : { tj with current_weight := tj.current_weight + tj.weight } = t :=
      Option.some.inj ht
    have hvj : (rotVals st.servers)[j]? = some (some (tj.current_weight + tj.weight)) := by
      simp [rotVals, List.getElem?_map, hjs]
    have := hmax j (tj.current_weight + tj.weight) hvj
    rw [← hteq]
    simp only
    rw [hveq]
    exact this
  have hout : nextInterface st
      = (some sk.name,
        { st with servers := ((rotUpd st.servers).set k
            { sk with current_weight :=
                (sk.current_weight + sk.weight - st.total_weight) }) }) := by
    simp only [nextInterface, hguard, Bool.false_eq_true, if_false, rotLoop_eq, hbf]
    rw [hupdk]
  refine ⟨k, { sk with current_weight := sk.current_weight + sk.weight },
    hupdk, hmax', ?_, ?_, ?_⟩
  · rw [hout]
  · rw [hout]
  · rw [hout]

theorem rotInv_next (st : WrrRotState) (hinv : RotInv st) :
    RotInv (nextInterface st).2 ∧
    (nextInterface st).2.servers.map (fun s => s.name) = st.servers.map (fun s => s.name) ∧
    (nextInterface st).2.servers.map (fun s => s.weight)
      = st.servers.map (fun s => s.weight) ∧
    (nextInterface st).2.total_weight = st.total_weight := by
  have htotpos := rotInv_total_pos st hinv
  obtain ⟨k, s, hupdk, hmax, hsel, hserv, htotW⟩ := nextInterface_step st hinv
  obtain ⟨hne, hw, htot, hsum, hlb, hnames⟩ := hinv
  have hname : (nextInterface st).2.servers.map (fun t => t.name)
      = st.servers.map (fun t => t.name) := by
    rw [hserv, set_map_name _ k s _ hupdk, rotUpd_map_name]
  have hweight : (nextInterface st).2.servers.map (fun t => t.weight)
      = st.servers.map (fun t => t.weight) := by
    rw [hserv, set_map_weight _ k s _ hupdk, rotUpd_map_weight]
  have hcwsum : ((nextInterface st).2.servers.map (fun t => t.current_weight)).sum = 0 := by
    rw [hserv, set_cw_sum _ k s _ hupdk, rotUpd_cw_sum, hsum, ← htot]
    ring
  have hpos_s : 0 < s.current_weight := by
    by_contra hnp
    push_neg at hnp
    have hall : ∀ x ∈ (rotUpd st.servers).map (fun t => t.current_weight), x ≤ 0 := by
      intro x hx
      obtain ⟨t, ht, rfl⟩ := List.mem_map.mp hx
      obtain ⟨n, hn⟩ := List.get_of_mem ht
      have hn' : (rotUpd st.servers)[n.1]? = some t := by
        rw [List.getElem?_eq_getElem n.2]
        exact congrArg some (by simpa using hn)
      exact le_trans (hmax n.1 t hn') hnp
    have hsum' : ((rotUpd st.servers).map (fun t => t.current_weight)).sum ≤ 0 := by
      have := List.sum_le_card_nsmul ((rotUpd st.servers).map
        (fun t => t.current_weight)) 0 hall
      simpa using this
    rw [rotUpd_cw_sum, hsum, ← htot] at hsum'
    linarith
  refine ⟨⟨?_, ?_, ?_, hcwsum, ?_, ?_⟩, hname, hweight, htotW⟩
  · intro hnil
    apply hne
    have hlen : (nextInterface st).2.servers.length = st.servers.length := by
      rw [hserv, List.length_set, rotUpd_length]
    rw [hnil] at hlen
    exact List.length_eq_zero.mp hlen.symm
  · intro t ht
    have hmem : t.weight ∈ (nextInterface st).2.servers.map (fun t => t.weight) :=
      List.mem_map_of_mem _ ht
    rw [hweight] at hmem
    obtain ⟨t0, ht0, heq⟩ := List.mem_map.mp hmem
    rw [← heq]
    exact hw t0 ht0
  · rw [htotW, hweight]
    exact htot
  · intro t ht
    rw [htotW]
    rw [hserv] at ht
    rcases List.mem_or_eq_of_mem_set ht with htu | rfl
    · rw [rotUpd] at htu
      obtain ⟨t0, ht0, rfl⟩ := List.mem_map.mp htu
      have h1 := hlb t0 ht0
      have h2 := hw t0 ht0
      simp only
      linarith
    · simp only
      linarith
  · rw [show (nextInterface st).2.servers.map (fun t => t.name)
      = st.servers.map (fun t => t.name) from hname]
    exact hnames

theorem rotIter_facts (st : WrrRotState) (hinv : RotInv st) (t : Nat) :
    RotInv (rotIter st t) ∧
    (rotIter st t).servers.map (fun s => s.name) = st.servers.map (fun s => s.name) ∧
    (rotIter st t).servers.map (fun s => s.weight) = st.servers.map (fun s => s.weight) ∧
    (rotIter st t).total_weight = st.total_weight := by
  induction t with
  | zero => exact ⟨hinv, rfl, rfl, rfl⟩
  | succ t ih =>
    obtain ⟨hi, hn, hw, ht⟩ := ih
    obtain ⟨hi', hn', hw', ht'⟩ := rotInv_next (rotIter st t) hi
    exact ⟨hi', hn'.trans hn, hw'.trans hw, ht'.trans ht⟩

theorem rotIter_getElem (st : WrrRotState) (hinv : RotInv st) (q : Nat) (s : WServer)
    (hq : st.servers[q]? = some s) (t : Nat) :
    ∃ s', (rotIter st t).servers[q]? = some s' ∧ s'.name = s.name ∧ s'.weight = s.weight := by
  obtain ⟨_, hn, hw, _⟩ := rotIter_facts st hinv t
  have hlen : (rotIter st t).servers.length = st.servers.length := by
    have := congrArg List.length hn
    simpa using this
  have hqlt : q < st.servers.length := (List.getElem?_eq_some_iff.mp hq).1
  have hqlt' : q < (rotIter st t).servers.length := by
    rw [hlen]
    exact hqlt
  obtain ⟨s', hs'⟩ : ∃ s', (rotIter st t).servers[q]? = some s' :=
    ⟨(rotIter st t).servers[q], List.getElem?_eq_getElem hqlt'⟩
  refine ⟨s', hs', ?_, ?_⟩
  · have h1 : ((rotIter st t).servers.map (fun s => s.name))[q]? = some s'.name := by
      simp [List.getElem?_map, hs']
    have h2 : (st.servers.map (fun s => s.name))[q]? = some s.name := by
      simp [List.getElem?_map, hq]
    rw [hn] at h1
    exact Option.some.inj (h1.symm.trans h2)
  · have h1 : ((rotIter st t).servers.map (fun s => s.weight))[q]? = some s'.weight := by
      simp [List.getElem?_map, hs']
    have h2 : (st.servers.map (fun s => s.weight))[q]? = some s.weight := by
      simp [List.getElem?_map, hq]
    rw [hw] at h1
    exact Option.some.inj (h1.symm.trans h2)

theorem rot_cw_step (st : WrrRotState) (hinv : RotInv st) (q : Nat) (s : WServer)
    (hq : st.servers[q]? = some s) :
    ∃ s', (nextInterface st).2.servers[q]? = some s' ∧
      s'.current_weight = s.current_weight + s.weight
        - (if (nextInterface st).1 = some s.name then st.total_weight else 0) := by
  obtain ⟨k, sw, hupdk, hmax, hsel, hserv, htotW⟩ := nextInterface_step st hinv
  obtain ⟨hne, hwpos, htot, hsum, hlb, hnames⟩ := hinv
  have hupdq : (rotUpd st.servers)[q]?
      = some { s with current_weight := s.current_weight + s.weight } :=
    rotUpd_getElem st.servers q s hq
  by_cases hqk : q = k
  · subst hqk
    have hsw : sw = { s with current_weight := s.current_weight + s.weight } :=
      Option.some.inj (hupdk.symm.trans hupdq)
    have hselq : (nextInterface st).1 = some s.name := by
      rw [hsel, hsw]
    refine ⟨{ sw with current_weight := sw.current_weight - st.total_weight }, ?_, ?_⟩
    · rw [hserv]
      have hlt : q < (rotUpd st.servers).length := (List.getElem?_eq_some_iff.mp hupdk).1
      simp [List.getElem?_set, hlt]
    · rw [if_pos hselq, hsw]
  · refine ⟨{ s with current_weight := s.current_weight + s.weight }, ?_, ?_⟩
    · rw [hserv, List.getElem?_set, if_neg (fun hc => hqk hc.symm)]
      exact hupdq
    · have hnesel : ¬ (nextInterface st).1 = some s.name := by
        rw [hsel]
        intro hcon
        have hswname : sw.name = s.name := Option.some.inj hcon
        rw [rotUpd, List.getElem?_map] at hupdk
        rcases hks : st.servers[k]? with _ | sk0
        · rw [hks] at hupdk
          cases hupdk
        rw [hks] at hupdk
        simp only [Option.map_some'] at hupdk
        have hsk0 : sw = { sk0 with current_weight := sk0.current_weight + sk0.weight } :=
          (Option.some.inj hupdk).symm
        have hnameeq : sk0.name = s.name := by
          rw [← hswname, hsk0]
        have h1 : (st.servers.map (fun t => t.name))[k]? = some sk0.name := by
          simp [List.getElem?_map, hks]
        have h2 : (st.servers.map (fun t => t.name))[q]? = some s.name := by
          simp [List.getElem?_map, hq]
        have hklt : k < (st.servers.map (fun t => t.name)).length := by
          rw [List.length_map]
          exact (List.getElem?_eq_some_iff.mp hks).1
        have hkq : k = q := by
          apply List.getElem?_inj hklt hnames
          rw [h1, h2, hnameeq]
        exact hqk hkq.symm
      rw [if_neg hnesel]
      simp only
      ring

theorem rot_telescope (st : WrrRotState) (hinv : RotInv st) (q : Nat) (s : WServer)
    (hq : st.servers[q]? = some s) (m : Nat) :
    ∀ n : Nat, ∃ s1 s2, (rotIter st m).servers[q]? = some s1 ∧
      (rotIter st (m + n)).servers[q]? = some s2 ∧
      s2.current_weight = s1.current_weight + (n : ℚ) * s.weight
        - (rotCount st s.name m n : ℚ) * st.total_weight := by
  intro n
  induction n with
  | zero =>
    obtain ⟨s1, hs1, _, _⟩ := rotIter_getElem st hinv q s hq m
    refine ⟨s1, s1, hs1, by simpa using hs1, ?_⟩
    simp [rotCount]
  | succ n ih =>
    obtain ⟨s1, s2, hs1, hs2, hrec⟩ := ih
    obtain ⟨hi, _, _, htoteq⟩ := rotIter_facts st hinv (m + n)
    obtain ⟨s2', hs2', hname2, hweight2⟩ := rotIter_getElem st hinv q s hq (m + n)
    have hs2eq : s2' = s2 := Option.some.inj (hs2'.symm.trans hs2)
    rw [hs2eq] at hname2 hweight2
    obtain ⟨s3, hs3, hcw3⟩ := rot_cw_step (rotIter st (m + n)) hi q s2 hs2
    refine ⟨s1, s3, hs1, ?_, ?_⟩
    · have hmn : m + (n + 1) = (m + n) + 1 := by omega
      rw [hmn]
      exact hs3
    · have hcount : rotCount st s.name m (n + 1)
          = rotCount st s.name m n + (if rotSel st (m + n) = some s.name then 1 else 0) := by
        rw [rotCount, rotCount, List.range_succ, List.filter_append, List.length_append]
        by_cases hp : rotSel st (m + n) = some s.name <;> simp [hp]
      have hselname : (nextInterface (rotIter st (m + n))).1 = rotSel st (m + n) := rfl
      rw [hcount, hcw3, hrec, hname2, hweight2, htoteq, hselname]
      by_cases hp : rotSel st (m + n) = some s.name <;>
        simp only [hp, if_pos, if_neg, if_true, if_false] <;>
        push_cast <;>
        ring

theorem rotInv_cw_bound (st : WrrRotState) (hinv : RotInv st) (q : Nat) (s : WServer)
    (hq : st.servers[q]? = some s) :
    |s.current_weight| ≤ (st.servers.length : ℚ) * st.total_weight := by
  have hW := rotInv_total_pos st hinv
  obtain ⟨hne, hw, htot, hsum, hlb, hnames⟩ := hinv
  have hcwq : (st.servers.map (fun t => t.current_weight))[q]? = some s.current_weight := by
    simp [List.getElem?_map, hq]
  obtain ⟨l', hlen, hmem, hsplit⟩ := sum_split_at _ q s.current_weight hcwq
  have hlow : ∀ x ∈ l', -st.total_weight ≤ x := by
    intro x hx
    obtain ⟨t, ht, rfl⟩ := List.mem_map.mp (hmem x hx)
    exact le_of_lt (hlb t ht)
  have hsum' : (l'.length : ℚ) * (-st.total_weight) ≤ l'.sum := by
    have := List.card_nsmul_le_sum l' (-st.total_weight) hlow
    simpa [nsmul_eq_mul] using this
  have hk1 : 1 ≤ st.servers.length := by
    rcases hs : st.servers with _ | ⟨a, as⟩
    · exact absurd hs hne
    · simp
  have hlennat : l'.length + 1 = st.servers.length := by
    rw [hlen, List.length_map]
  have hlenq : (l'.length : ℚ) = (st.servers.length : ℚ) - 1 := by
    have : ((l'.length + 1 : Nat) : ℚ) = ((st.servers.length : Nat) : ℚ) := by
      exact_mod_cast congrArg (fun n : Nat => (n : ℚ)) hlennat
    push_cast at this
    linarith
  have hks : (1 : ℚ) ≤ (st.servers.length : ℚ) := by
    exact_mod_cast hk1
  have hcwval : s.current_weight = - l'.sum := by
    rw [hsplit] at hsum
    linarith
  rw [abs_le]
  constructor
  · have h1 := hlb s (List.getElem?_mem hq)
    nlinarith
  · nlinarith

/-- C9: long-run fairness of the main.rs smooth-WRR rotation.  Starting
from a rebuilt state (non-empty servers, positive weights, cached total
equal to the weight sum, zero accumulators, distinct names), over any
window of `n` calls the number of selections of server `q` deviates from
`n * w_q / W` by at most `2 * k` (stated multiplied through by the total
weight `W`; the bound is independent of both the window start `m` and its
length `n`), hence the selection fraction converges to `w_q / Σ w`. -/
theorem wrr_rotation_fairness (st : WrrRotState) (h : RotStart st) (q : Nat) (s : WServer)
    (hq : st.servers[q]? = some s) (m n : Nat) :
    |(rotCount st s.name m n : ℚ) * st.total_weight - (n : ℚ) * s.weight|
      ≤ 2 * (st.servers.length : ℚ) * st.total_weight := by
  obtain ⟨hne, hw, htot, hcw0, hnames⟩ := h
  have hWpos : 0 < st.total_weight := by
    rw [htot]
    apply List.sum_pos
    · intro x hx
      obtain ⟨t, ht, rfl⟩ := List.mem_map.mp hx
      exact hw t ht
    · intro hmap
      exact hne (List.map_eq_nil_iff.mp hmap)
  have hinv : RotInv st := by
    refine ⟨hne, hw, htot, ?_, ?_, hnames⟩
    · apply List.sum_eq_zero
      intro x hx
      obtain ⟨t, ht, rfl⟩ := List.mem_map.mp hx
      exact hcw0 t ht
    · intro t ht
      rw [hcw0 t ht]
      linarith
  obtain ⟨s1, s2, hs1, hs2, hrec⟩ := rot_telescope st hinv q s hq m n
  obtain ⟨hi_m, hn_m, _, htot_m⟩ := rotIter_facts st hinv m
  obtain ⟨hi_mn, hn_mn, _, htot_mn⟩ := rotIter_facts st hinv (m + n)
  have hb1 := rotInv_cw_bound (rotIter st m) hi_m q s1 hs1
  have hb2 := rotInv_cw_bound (rotIter st (m + n)) hi_mn q s2 hs2
  have hlen_m : (rotIter st m).servers.length = st.servers.length := by
    have := congrArg List.length hn_m
    simpa using this
  have hlen_mn : (rotIter st (m + n)).servers.length = st.servers.length := by
    have := congrArg List.length hn_mn
    simpa using this
  rw [hlen_m, htot_m] at hb1
  rw [hlen_mn, htot_mn] at hb2
  have hkey : (rotCount st s.name m n : ℚ) * st.total_weight - (n : ℚ) * s.weight
      = s1.current_weight - s2.current_weight := by
    linarith [hrec]
  rw [hkey]
  calc |s1.current_weight - s2.current_weight|
      ≤ |s1.current_weight| + |s2.current_weight| := abs_sub s1.current_weight s2.current_weight
    _ ≤ (st.servers.length : ℚ) * st.total_weight
        + (st.servers.length : ℚ) * st.total_weight := add_le_add hb1 hb2
    _ = 2 * (st.servers.length : ℚ) * st.total_weight := by ring

/-- C9 witness: two servers of weights 3 and 1. -/
theorem wrr_rotation_fairness_witness :
    RotStart { servers := [{ name := "a", weight := 3, current_weight := 0 },
        { name := "b", weight := 1, current_weight := 0 }], total_weight := 4 } ∧
    ({ servers := [{ name := "a", weight := 3, current_weight := 0 },
        { name := "b", weight := 1, current_weight := 0 }], total_weight := 4 }
        : WrrRotState).servers[0]?
      = some { name := "a", weight := 3, current_weight := 0 } ∧
    |(rotCount { servers := [{ name := "a", weight := 3, current_weight := 0 },
        { name := "b", weight := 1, current_weight := 0 }], total_weight := 4 }
        "a" 0 4 : ℚ) * 4 - (4 : ℚ) * 3| ≤ 2 * 2 * 4 := by
  have hstart : RotStart { servers := [{ name := "a", weight := 3, current_weight := 0 },
      { name := "b", weight := 1, current_weight := 0 }], total_weight := 4 } := by
    refine ⟨by simp, ?_, by norm_num, ?_, by simp⟩
    · intro t ht
      simp only [List.mem_cons, List.not_mem_nil, or_false] at ht
      rcases ht with rfl | rfl
      · norm_num
      · norm_num
    · intro t ht
      simp only [List.mem_cons, List.not_mem_nil, or_false] at ht
      rcases ht with rfl | rfl
      · rfl
      · rfl
  refine ⟨hstart, rfl, ?_⟩
  have := wrr_rotation_fairness
    { servers := [{ name := "a", weight := 3, current_weight := 0 },
        { name := "b", weight := 1, current_weight := 0 }], total_weight := 4 }
    hstart 0 { name := "a", weight := 3, current_weight := 0 } rfl 0 4
  simpa using this

end Engarde
